import Mathlib

/-!
Shallow embedding of the `lazada_scsdk` client (`src/lazada_scsdk/client.py`)
and proofs about its request-signing pipeline, option layering, response
normalization, XML preparation and proxy selection.

Python dictionaries are modelled as association lists with unique keys,
machine-level byte/word arithmetic as `Nat` with explicit `% 2^32`, and the
Python standard-library pieces the client calls (`hmac`/`hashlib.sha256`,
`urllib.parse.urlencode`/`quote_plus`, `json.dumps` on booleans, `str` on
parsed JSON values, `xml.etree.ElementTree` parse/serialize, `random.choice`)
are embedded as executable Lean functions.
-/

namespace Lazada

/-! ### Bytes, SHA-256 and HMAC (models `hashlib.sha256` / `hmac.HMAC`) -/

/-- Wrap-around modulus for 32-bit words. -/
def M32 : Nat := 4294967296

/-- 32-bit addition. -/
def add32 (a b : Nat) : Nat := (a + b) % M32

/-- 32-bit rotate right. -/
def rotr (n x : Nat) : Nat := ((x >>> n) ||| (x <<< (32 - n))) % M32

/-- 32-bit bitwise complement (arguments are < 2^32). -/
def not32 (x : Nat) : Nat := 4294967295 - x % M32

def bsig0 (x : Nat) : Nat := Nat.xor (rotr 2 x) (Nat.xor (rotr 13 x) (rotr 22 x))

def bsig1 (x : Nat) : Nat := Nat.xor (rotr 6 x) (Nat.xor (rotr 11 x) (rotr 25 x))

def ssig0 (x : Nat) : Nat := Nat.xor (rotr 7 x) (Nat.xor (rotr 18 x) (x >>> 3))

def ssig1 (x : Nat) : Nat := Nat.xor (rotr 17 x) (Nat.xor (rotr 19 x) (x >>> 10))

/-- The SHA-256 round constants. -/
def K256 : List Nat :=
  [1116352408, 1899447441, 3049323471, 3921009573, 961987163, 1508970993,
   2453635748, 2870763221, 3624381080, 310598401, 607225278, 1426881987,
   1925078388, 2162078206, 2614888103, 3248222580, 3835390401, 4022224774,
   264347078, 604807628, 770255983, 1249150122, 1555081692, 1996064986,
   2554220882, 2821834349, 2952996808, 3210313671, 3336571891, 3584528711,
   113926993, 338241895, 666307205, 773529912, 1294757372, 1396182291,
   1695183700, 1986661051, 2177026350, 2456956037, 2730485921, 2820302411,
   3259730800, 3345764771, 3516065817, 3600352804, 4094571909, 275423344,
   430227734, 506948616, 659060556, 883997877, 958139571, 1322822218,
   1537002063, 1747873779, 1955562222, 2024104815, 2227730452, 2361852424,
   2428436474, 2756734187, 3204031479, 3329325298]

/-- The SHA-256 initial hash value. -/
def H0 : List Nat :=
  [1779033703, 3144134277, 1013904242, 2773480762,
   1359893119, 2600822924, 528734635, 1541459225]

/-- Message-schedule extension: `acc` holds the schedule so far in reverse
(`acc.getD 0` is `w[i-1]`); extend by `n` further words. -/
def schedExt (acc : List Nat) : Nat → List Nat
  | 0 => acc
  | n + 1 =>
      schedExt
        (add32 (add32 (ssig1 (acc.getD 1 0)) (acc.getD 6 0))
               (add32 (ssig0 (acc.getD 14 0)) (acc.getD 15 0)) :: acc) n

/-- Full 64-word message schedule of a 16-word block. -/
def schedule (block : List Nat) : List Nat :=
  (schedExt block.reverse 48).reverse

/-- The eight SHA-256 working variables. -/
structure Sha256State where
  a : Nat
  b : Nat
  c : Nat
  d : Nat
  e : Nat
  f : Nat
  g : Nat
  h : Nat

/-- One SHA-256 compression round, with `kw` the round constant and schedule word. -/
def sha256Round (st : Sha256State) (kw : Nat × Nat) : Sha256State :=
  let t1 := add32 st.h (add32 (bsig1 st.e)
      (add32 (Nat.xor (Nat.land st.e st.f) (Nat.land (not32 st.e) st.g))
             (add32 kw.1 kw.2)))
  let t2 := add32 (bsig0 st.a)
      (Nat.xor (Nat.land st.a st.b) (Nat.xor (Nat.land st.a st.c) (Nat.land st.b st.c)))
  ⟨add32 t1 t2, st.a, st.b, st.c, add32 st.d t1, st.e, st.f, st.g⟩

/-- SHA-256 compression function on one 16-word block. -/
def compress (h : List Nat) (block : List Nat) : List Nat :=
  let ws := schedule block
  let st0 : Sha256State := ⟨h.getD 0 0, h.getD 1 0, h.getD 2 0, h.getD 3 0,
                            h.getD 4 0, h.getD 5 0, h.getD 6 0, h.getD 7 0⟩
  let st := (K256.zip ws).foldl sha256Round st0
  [add32 (h.getD 0 0) st.a, add32 (h.getD 1 0) st.b, add32 (h.getD 2 0) st.c,
   add32 (h.getD 3 0) st.d, add32 (h.getD 4 0) st.e, add32 (h.getD 5 0) st.f,
   add32 (h.getD 6 0) st.g, add32 (h.getD 7 0) st.h]

/-- Big-endian grouping of bytes into 32-bit words. -/
def bytesToWords : List Nat → List Nat
  | b0 :: b1 :: b2 :: b3 :: rest => (((b0 * 256 + b1) * 256 + b2) * 256 + b3) :: bytesToWords rest
  | _ => []

/-- Split a word list into `n` chunks of 16 words. -/
def toBlocksN : Nat → List Nat → List (List Nat)
  | 0, _ => []
  | n + 1, ws => ws.take 16 :: toBlocksN n (ws.drop 16)

def toBlocks (ws : List Nat) : List (List Nat) := toBlocksN ((ws.length + 15) / 16) ws

/-- SHA-256 padding: `0x80`, zeros to 56 mod 64, then the 64-bit bit length. -/
def padMsg (msg : List Nat) : List Nat :=
  let l := msg.length
  let padlen := (55 - l % 64 + 64) % 64 + 1
  let bits := l * 8
  msg ++ (0x80 :: List.replicate (padlen - 1) 0) ++
    [bits / 2 ^ 56 % 256, bits / 2 ^ 48 % 256, bits / 2 ^ 40 % 256, bits / 2 ^ 32 % 256,
     bits / 2 ^ 24 % 256, bits / 2 ^ 16 % 256, bits / 2 ^ 8 % 256, bits % 256]

/-- SHA-256 of a byte list, as eight 32-bit words. -/
def sha256 (msg : List Nat) : List Nat :=
  (toBlocks (bytesToWords (padMsg msg))).foldl compress H0

/-- Big-endian word-to-byte expansion. -/
def wordsToBytes : List Nat → List Nat
  | [] => []
  | w :: rest => w / 2 ^ 24 % 256 :: w / 2 ^ 16 % 256 :: w / 2 ^ 8 % 256 :: w % 256 ::
      wordsToBytes rest

/-- Lowercase hex digit. -/
def hexDigit (n : Nat) : Char :=
  if n < 10 then Char.ofNat (48 + n) else Char.ofNat (87 + n)

def byteHexLower (b : Nat) : List Char := [hexDigit (b / 16), hexDigit (b % 16)]

/-- Lowercase hex rendering of a byte list (`.hexdigest()`). -/
def bytesHex (bs : List Nat) : String := ⟨bs.flatMap byteHexLower⟩

/-- UTF-8 encoding of one character. -/
def charUtf8 (c : Char) : List Nat :=
  let n := c.toNat
  if n < 0x80 then [n]
  else if n < 0x800 then [0xC0 + n / 64, 0x80 + n % 64]
  else if n < 0x10000 then [0xE0 + n / 4096, 0x80 + n / 64 % 64, 0x80 + n % 64]
  else [0xF0 + n / 262144, 0x80 + n / 4096 % 64, 0x80 + n / 64 % 64, 0x80 + n % 64]

/-- UTF-8 encoding of a string (Python `str.encode()`). -/
def strBytes (s : String) : List Nat := s.data.flatMap charUtf8

/-- HMAC-SHA256 over byte lists (`hmac.HMAC(key, msg, sha256)`). -/
def hmacSha256 (key msg : List Nat) : List Nat :=
  let k := if key.length > 64 then wordsToBytes (sha256 key) else key
  let kpad := k ++ List.replicate (64 - k.length) 0
  let ipad := kpad.map (Nat.xor 0x36)
  let opad := kpad.map (Nat.xor 0x5c)
  sha256 (opad ++ wordsToBytes (sha256 (ipad ++ msg)))

/-- `HMAC(key.encode(), msg.encode(), sha256).hexdigest()`. -/
def hmacHex (key msg : String) : String :=
  bytesHex (wordsToBytes (hmacSha256 (strBytes key) (strBytes msg)))

/-! ### URL encoding and the signature engine
(models `urllib.parse.urlencode(sorted(parameters.items()))` followed by
`.replace('+', '%20')` and HMAC, `client.py` lines 118-120) -/

/-- Bytes `urllib.parse.quote_plus` leaves untouched: ASCII alphanumerics
and `_`, `.`, `-`, `~`. -/
def quoteSafeByte (b : Nat) : Bool :=
  (48 ≤ b && b ≤ 57) || (65 ≤ b && b ≤ 90) || (97 ≤ b && b ≤ 122) ||
    b == 95 || b == 46 || b == 45 || b == 126

/-- Uppercase hex digit, used by percent-encoding. -/
def hexDigitUpper (n : Nat) : Char :=
  if n < 10 then Char.ofNat (48 + n) else Char.ofNat (55 + n)

/-- `quote_plus` on a single byte: safe bytes kept, space becomes `+`,
everything else percent-encoded with uppercase hex. -/
def quotePlusByte (b : Nat) : List Char :=
  if quoteSafeByte b then [Char.ofNat b]
  else if b == 32 then ['+']
  else ['%', hexDigitUpper (b / 16), hexDigitUpper (b % 16)]

/-- `urllib.parse.quote_plus` on a string (UTF-8 then per-byte quoting). -/
def quotePlus (s : String) : String := ⟨(strBytes s).flatMap quotePlusByte⟩

/-- `urllib.parse.urlencode` on a list of key/value pairs. -/
def urlencodePairs (ps : List (String × String)) : String :=
  String.intercalate "&" (ps.map fun p => quotePlus p.1 ++ "=" ++ quotePlus p.2)

/-- Lexicographic code-point comparison of character lists (Python `str` `<`). -/
def charListLt : List Char → List Char → Bool
  | [], [] => false
  | [], _ :: _ => true
  | _ :: _, [] => false
  | a :: as, b :: bs =>
      if a.toNat < b.toNat then true
      else if a.toNat = b.toNat then charListLt as bs
      else false

/-- Python string comparison, by code points. -/
def strLtB (a b : String) : Bool := charListLt a.data b.data

/-- Python tuple comparison on `(key, value)` pairs of strings. -/
def pairLeB (a b : String × String) : Bool :=
  if a.1 = b.1 then !strLtB b.2 a.2 else strLtB a.1 b.1

def insertSorted (x : String × String) :
    List (String × String) → List (String × String)
  | [] => [x]
  | y :: ys => if pairLeB x y then x :: y :: ys else y :: insertSorted x ys

/-- Python `sorted` on the item list of a parameter map. -/
def pySorted (l : List (String × String)) : List (String × String) :=
  l.foldr insertSorted []

/-- `str.replace('+', '%20')`. -/
def replacePlus (s : String) : String :=
  ⟨s.data.flatMap fun c => if c = '+' then ['%', '2', '0'] else [c]⟩

/-- The canonical string that gets signed:
`urllib.parse.urlencode(sorted(parameters.items())).replace('+', '%20')`. -/
def concatenatedString (ps : List (String × String)) : String :=
  replacePlus (urlencodePairs (pySorted ps))

/-- The signature engine (`client.py` lines 118-120): lowercase hex
HMAC-SHA256 of the canonical string, keyed with the api key. -/
def sign (ps : List (String × String)) (apiKey : String) : String :=
  hmacHex apiKey (concatenatedString ps)

/-! ### Python dictionaries as association lists
(`dict` assignment, `dict.update`, and `_merge`, `client.py` lines 40-46) -/

/-- Python dict assignment `d[k] = v`: replace the binding in place if the
key is present, append it otherwise. -/
def pyDictSet {α : Type} : List (String × α) → String → α → List (String × α)
  | [], k, v => [(k, v)]
  | p :: rest, k, v => if p.1 = k then (k, v) :: rest else p :: pyDictSet rest k v

/-- Python `d.update(e)`: assign every binding of `e` into `d`, in order. -/
def pyUpdate {α : Type} (d e : List (String × α)) : List (String × α) :=
  e.foldl (fun acc p => pyDictSet acc p.1 p.2) d

/-- `_merge(*args)` (`client.py` lines 40-46): start from a fresh empty dict
and `update` it with each argument in order. -/
def pyMerge {α : Type} (args : List (List (String × α))) : List (String × α) :=
  args.foldl pyUpdate []

/-- Python dict lookup `d[k]` (`none` models a `KeyError`). -/
def dlookup {α : Type} : List (String × α) → String → Option α
  | [], _ => none
  | p :: rest, k => if p.1 = k then some p.2 else dlookup rest k

/-- The key list of a dict. -/
def dkeys {α : Type} (d : List (String × α)) : List String := d.map Prod.fst

/-! ### Request parameter assembly (`Client.request`, `client.py` lines 101-121) -/

/-- The standard parameters built at the start of every request. -/
def baseParameters (email version action format timestamp : String) :
    List (String × String) :=
  [("UserID", email), ("Version", version), ("Action", action),
   ("Format", format), ("Timestamp", timestamp)]

/-- The parameter map right before signing: the standard parameters, merged
with the caller-supplied `params` when present
(`parameters = _merge(parameters, request_options['params'])`). -/
def buildParameters (email version action format timestamp : String)
    (params : Option (List (String × String))) : List (String × String) :=
  match params with
  | some p => pyMerge [baseParameters email version action format timestamp, p]
  | none => baseParameters email version action format timestamp

/-- The final parameter map sent on the wire:
`parameters['Signature'] = HMAC(...).hexdigest()` after signing. -/
def signedParameters (apiKey email version action format timestamp : String)
    (params : Option (List (String × String))) : List (String × String) :=
  let ps := buildParameters email version action format timestamp params
  pyDictSet ps "Signature" (sign ps apiKey)

/-! ### Option classification with an explicit object heap
(`Client._select_options` / `Client._parse_request_options`,
`client.py` lines 221-245).  Python dict objects inside an options map are
shared by reference; the heap makes that aliasing explicit so that in-place
mutation of a caller's dict is observable. -/

/-- A primitive Python value stored inside a `params` dict. -/
inductive PVal where
  | str (s : String)
  | bool (b : Bool)
  | int (n : Int)
deriving DecidableEq

/-- An option value: either a reference to a dict object on the heap
(Python dicts are passed by reference) or a primitive value. -/
inductive OVal where
  | ref (r : Nat)
  | prim (v : PVal)
deriving DecidableEq

/-- The object heap: dict objects indexed by reference. -/
abbrev Heap := List (List (String × PVal))

def heapGet (h : Heap) (r : Nat) : List (String × PVal) := h.getD r []

/-- `REQUEST_OPTIONS = set(['params', 'data'])`. -/
def REQUEST_OPTIONS : List String := ["params", "data"]

/-- `json.dumps` on a Python boolean. -/
def jsonDumpsBool (b : Bool) : String := if b then "true" else "false"

/-- `if isinstance(params[key], bool): params[key] = json.dumps(params[key])`
applied to one value. -/
def coerceBool : PVal → PVal
  | .bool b => .str (jsonDumpsBool b)
  | v => v

/-- The in-place boolean-coercion loop over a `params` dict. -/
def coerceBools (d : List (String × PVal)) : List (String × PVal) :=
  d.map fun p => (p.1, coerceBool p.2)

/-- `Client._select_options(options, keys, invert)`: merge the client options
with the call options, then keep the bindings whose key is (or, inverted, is
not) in `keys`.  Values — including dict references — are copied binding by
binding; the dict objects themselves are not copied. -/
def selectOptions (clientOpts opts : List (String × OVal)) (keys : List String)
    (invert : Bool) : List (String × OVal) :=
  (pyMerge [clientOpts, opts]).filter fun p =>
    if invert then decide (p.1 ∉ keys) else decide (p.1 ∈ keys)

/-- `Client._parse_request_options`: select the request options, then coerce
the booleans inside the referenced `params` dict in place (a heap update at
the caller's reference). -/
def parseRequestOptions (h : Heap) (clientOpts opts : List (String × OVal)) :
    Heap × List (String × OVal) :=
  let ro := selectOptions clientOpts opts REQUEST_OPTIONS false
  match dlookup ro "params" with
  | some (OVal.ref r) => (h.set r (coerceBools (heapGet h r)), ro)
  | _ => (h, ro)

/-! ### Parsed JSON values and the JSON response normalizer
(`Client._check_json_response`, `client.py` lines 166-178) -/

/-- A parsed JSON value (`response.json()`). -/
inductive Json where
  | str (s : String)
  | num (n : Int)
  | bool (b : Bool)
  | null
  | arr (elems : List Json)
  | obj (fields : List (String × Json))

/-- Which quote Python `repr` picks for a string: single quotes unless the
string contains a single quote and no double quote. -/
def pyReprQuote (s : String) : Char :=
  if s.data.contains '\'' && !(s.data.contains '"') then '"' else '\''

/-- Python `repr` escaping of one character inside quote `q`. -/
def pyEscChar (q c : Char) : List Char :=
  if c = '\\' then ['\\', '\\']
  else if c = q then ['\\', q]
  else if c = '\n' then ['\\', 'n']
  else if c = '\r' then ['\\', 'r']
  else if c = '\t' then ['\\', 't']
  else [c]

/-- Python `repr` of a string. -/
def pyReprStr (s : String) : String :=
  let q := pyReprQuote s
  ⟨q :: (s.data.flatMap (pyEscChar q) ++ [q])⟩

mutual

/-- Python `repr` of a parsed JSON value. -/
def pyRepr : Json → String
  | .str s => pyReprStr s
  | .num n => toString n
  | .bool true => "True"
  | .bool false => "False"
  | .null => "None"
  | .arr xs => "[" ++ pyReprList xs ++ "]"
  | .obj fs => "\x7b" ++ pyReprFields fs ++ "\x7d"

def pyReprList : List Json → String
  | [] => ""
  | [x] => pyRepr x
  | x :: y :: rest => pyRepr x ++ ", " ++ pyReprList (y :: rest)

def pyReprFields : List (String × Json) → String
  | [] => ""
  | [p] => pyReprStr p.1 ++ ": " ++ pyRepr p.2
  | p :: q :: rest => pyReprStr p.1 ++ ": " ++ pyRepr p.2 ++ ", " ++ pyReprFields (q :: rest)

end

/-- Python `str` of a parsed JSON value (`str` is `repr` except on strings). -/
def pythonStr : Json → String
  | .str s => s
  | j => pyRepr j

/-- The exceptional outcomes of `_check_json_response`: the typed `BaseError`
(carrying the provider code and message) or a propagated builtin exception. -/
inductive JErr where
  | apiError (code : Json) (message : Json)
  | keyError (k : String)
  | typeError

/-- `x[k]` on a parsed JSON value: field access on objects (`KeyError` when
missing), `TypeError` on anything else. -/
def getItem : Json → String → Except JErr Json
  | .obj fields, k =>
      match dlookup fields k with
      | some v => .ok v
      | none => .error (.keyError k)
  | _, _ => .error .typeError

/-- Leading-position character-list match. -/
def subAt : List Char → List Char → Bool
  | [], _ => true
  | _ :: _, [] => false
  | a :: as, b :: bs => a == b && subAt as bs

/-- Substring test on character lists. -/
def hasSub (needle : List Char) : List Char → Bool
  | [] => needle.isEmpty
  | c :: t => subAt needle (c :: t) || hasSub needle t

/-- Python `k in x` on a parsed JSON value: key membership for objects,
element equality for lists, substring for strings, `TypeError` otherwise. -/
def jsonContainsKey : Json → String → Except JErr Bool
  | .obj fields, k => .ok (dlookup fields k).isSome
  | .arr xs, k => .ok (xs.any fun x => match x with | .str s => s == k | _ => false)
  | .str s, k => .ok (hasSub k.data s.data)
  | _, _ => .error .typeError

/-- Python iteration over a parsed JSON value. -/
def jsonIter : Json → Except JErr (List Json)
  | .arr xs => .ok xs
  | .obj fields => .ok (fields.map fun p => .str p.1)
  | .str s => .ok (s.data.map fun c => .str ⟨[c]⟩)
  | _ => .error .typeError

/-- Python `message + suffix` where `suffix` is a string: string
concatenation when `message` is a string, `TypeError` otherwise. -/
def strConcatPy : Json → String → Except JErr Json
  | .str s, t => .ok (.str (s ++ t))
  | _, _ => .error .typeError

/-- The `for err in Errors: message += "\n" + str(Errors)` loop: one append
of the string form of the whole `Errors` value per element. -/
def appendErrorsLoop (errsVal : Json) (elems : List Json) (msg : Json) :
    Except JErr Json :=
  match elems with
  | [] => .ok msg
  | _ :: rest =>
      match strConcatPy msg ("\n" ++ pythonStr errsVal) with
      | .ok m => appendErrorsLoop errsVal rest m
      | .error e => .error e

/-- The `if 'Body' in ...` block of `_check_json_response`: when a `Body`
is present, run the append loop over `Body.Errors`. -/
def bodyMessage (er msg0 : Json) (hasBody : Bool) : Except JErr Json :=
  if hasBody then
    match getItem er "Body" with
    | .error e => .error e
    | .ok body =>
      match getItem body "Errors" with
      | .error e => .error e
      | .ok errs =>
        match jsonIter errs with
        | .error e => .error e
        | .ok elems => appendErrorsLoop errs elems msg0
  else .ok msg0

/-- `Client._check_json_response` (`client.py` lines 166-178). -/
def checkJsonResponse (j : Json) : Except JErr Json :=
  match jsonContainsKey j "ErrorResponse" with
  | .error e => .error e
  | .ok false => .ok j
  | .ok true =>
    match getItem j "ErrorResponse" with
    | .error e => .error e
    | .ok er =>
      match getItem er "Head" with
      | .error e => .error e
      | .ok head =>
        match getItem head "ErrorMessage" with
        | .error e => .error e
        | .ok msg0 =>
          match jsonContainsKey er "Body" with
          | .error e => .error e
          | .ok hasBody =>
            match bodyMessage er msg0 hasBody with
            | .error e => .error e
            | .ok msg =>
              match getItem head "ErrorCode" with
              | .error e => .error e
              | .ok code => .error (.apiError code msg)

/-- `n` concatenated copies of a string. -/
def repeatStr : Nat → String → String
  | 0, _ => ""
  | n + 1, x => x ++ repeatStr n x

/-- Projection of a normalizer outcome to the raised error's code and
message, both as Python `str`. -/
def apiErrorStrParts : Except JErr Json → Option (String × String)
  | .error (.apiError c m) => some (pythonStr c, pythonStr m)
  | _ => none

/-! ### Proxy selection (`Client.get_random_proxy`, `client.py` lines 83-89).
`random.choice` is modelled by a stream of arbitrary natural numbers reduced
modulo the pool size; the `while not rand` loop is given explicit fuel, with
`none` meaning that it has not terminated within that many iterations. -/

/-- The `while not rand: rand = random.choice(...)` loop, starting at draw
index `i`; a Python proxy entry is falsy exactly when it is the empty
string. -/
def getRandomProxyLoop (pool : List String) (stream : Nat → Nat) :
    Nat → Nat → Option String
  | 0, _ => none
  | fuel + 1, i =>
      let p := pool.getD (stream i % pool.length) ""
      if p = "" then getRandomProxyLoop pool stream fuel (i + 1) else some p

/-- `Client.get_random_proxy`: `None` for an empty pool, otherwise the loop;
the outer `none` means the loop did not terminate within `fuel` draws. -/
def getRandomProxy (pool : List String) (stream : Nat → Nat) (fuel : Nat) :
    Option (Option String) :=
  if pool.length = 0 then some none
  else
    match getRandomProxyLoop pool stream fuel 0 with
    | some p => some (some p)
    | none => none

/-! ### XML documents (`xml.etree.ElementTree`)
An element carries its tag, attribute list, text (the character data before
the first child, `""` for ElementTree's `None`), children, and tail (the
character data following its end tag).  The parser models expat on the
fragment the client exchanges: tags with double- or single-quoted attributes,
character data with the named entities `amp/lt/gt/quot/apos` and the numeric
references `&#13; &#10; &#09;` that ElementTree's serializer emits, XML
line-ending normalization (raw `\r\n` and `\r` become `\n` in text, and
whitespace becomes a space inside attribute values), and self-closing tags.
The serializer models `ET.tostring` (UTF-8 decoded): short form `<t />` for
childless text-less elements, `&`/`<`/`>` escaped in character data, and
`&`/`<`/`>`/`"`/`\r`/`\n`/`\t` escaped in attribute values. -/

inductive Xml where
  | elem (tag : String) (attrs : List (String × String)) (text : String)
      (children : List Xml) (tail : String)

def Xml.tag : Xml → String
  | .elem t _ _ _ _ => t

def Xml.attrs : Xml → List (String × String)
  | .elem _ a _ _ _ => a

def Xml.text : Xml → String
  | .elem _ _ x _ _ => x

def Xml.children : Xml → List Xml
  | .elem _ _ _ c _ => c

def Xml.tail : Xml → String
  | .elem _ _ _ _ tl => tl

def Xml.setTail : Xml → String → Xml
  | .elem t a x c _, tl => .elem t a x c tl

/-- XML whitespace. -/
def isXmlSpace (c : Char) : Bool := c = ' ' || c = '\t' || c = '\n' || c = '\r'

/-- Characters accepted inside tag and attribute names. -/
def isNameChar (c : Char) : Bool :=
  c.isAlphanum || c = '_' || c = '-' || c = '.' || c = ':'

def skipSpaces : List Char → List Char
  | [] => []
  | c :: rest => if isXmlSpace c then skipSpaces rest else c :: rest

/-- Scan the maximal run of name characters. -/
def scanName : List Char → List Char × List Char
  | [] => ([], [])
  | c :: rest =>
      if isNameChar c then
        let p := scanName rest
        (c :: p.1, p.2)
      else ([], c :: rest)

/-- Decode one entity reference (the characters after `&`): the named
entities and the numeric character references ElementTree's serializer
emits. -/
def entStep (cs : List Char) : Option (Char × List Char) :=
  if cs.take 4 = ['a', 'm', 'p', ';'] then some ('&', cs.drop 4)
  else if cs.take 3 = ['l', 't', ';'] then some ('<', cs.drop 3)
  else if cs.take 3 = ['g', 't', ';'] then some ('>', cs.drop 3)
  else if cs.take 5 = ['q', 'u', 'o', 't', ';'] then some ('"', cs.drop 5)
  else if cs.take 5 = ['a', 'p', 'o', 's', ';'] then some ('\'', cs.drop 5)
  else if cs.take 4 = ['#', '1', '3', ';'] then some ('\r', cs.drop 4)
  else if cs.take 4 = ['#', '1', '0', ';'] then some ('\n', cs.drop 4)
  else if cs.take 4 = ['#', '0', '9', ';'] then some ('\t', cs.drop 4)
  else none

/-- Scan character data up to the next `<` (or the end of input), resolving
entity references and normalizing line endings (`\r\n` and `\r` to `\n`);
`none` on a raw `&` that is not a supported reference.  The fuel dominates
the input length; one unit is spent per produced character. -/
def scanTextF : Nat → List Char → Option (List Char × List Char)
  | 0, _ => none
  | _ + 1, [] => some ([], [])
  | f + 1, c :: rest =>
      if c = '<' then some ([], c :: rest)
      else if c = '&' then
        match entStep rest with
        | some (d, r) => (scanTextF f r).map fun p => (d :: p.1, p.2)
        | none => none
      else if c = '\r' then
        match rest with
        | '\n' :: r => (scanTextF f r).map fun p => ('\n' :: p.1, p.2)
        | _ => (scanTextF f rest).map fun p => ('\n' :: p.1, p.2)
      else (scanTextF f rest).map fun p => (c :: p.1, p.2)

/-- Scan an attribute value up to the closing quote `q`, resolving entities
and applying attribute-value normalization (raw whitespace to a space). -/
def scanAttrValF (q : Char) : Nat → List Char → Option (List Char × List Char)
  | 0, _ => none
  | _ + 1, [] => none
  | f + 1, c :: rest =>
      if c = q then some ([], rest)
      else if c = '&' then
        match entStep rest with
        | some (d, r) => (scanAttrValF q f r).map fun p => (d :: p.1, p.2)
        | none => none
      else if c = '<' then none
      else if c = '\r' then
        match rest with
        | '\n' :: r => (scanAttrValF q f r).map fun p => (' ' :: p.1, p.2)
        | _ => (scanAttrValF q f rest).map fun p => (' ' :: p.1, p.2)
      else if c = '\n' ∨ c = '\t' then
        (scanAttrValF q f rest).map fun p => (' ' :: p.1, p.2)
      else (scanAttrValF q f rest).map fun p => (c :: p.1, p.2)

/-- Scan `="value"` (double or single quotes) after an attribute name. -/
def parseOneAttrVal : List Char → Option (List Char × List Char)
  | '=' :: q :: cs3 =>
      if q = '"' ∨ q = '\'' then scanAttrValF q (cs3.length + 1) cs3 else none
  | _ => none

/-- Combine one scanned attribute with the parse of the remaining ones. -/
def parseAttrsFinish (pa : List Char → Option (List (String × String) × Bool × List Char))
    (nm : List Char) (vres : Option (List Char × List Char)) :
    Option (List (String × String) × Bool × List Char) :=
  match vres with
  | some (v, cs4) =>
      match pa cs4 with
      | some (attrs, sc, rest) => some ((⟨nm⟩, ⟨v⟩) :: attrs, sc, rest)
      | none => none
  | none => none

/-- Dispatch on a scanned attribute name (empty name: parse error). -/
def parseAttrsStep (pa : List Char → Option (List (String × String) × Bool × List Char)) :
    List Char × List Char → Option (List (String × String) × Bool × List Char)
  | ([], _) => none
  | (nm, cs2) => parseAttrsFinish pa nm (parseOneAttrVal cs2)

/-- One step of attribute-list parsing: recognize the end of the open tag or
scan a single `name="value"` pair and continue through `pa`. -/
def parseAttrsCore (pa : List Char → Option (List (String × String) × Bool × List Char))
    (cs : List Char) : Option (List (String × String) × Bool × List Char) :=
  match skipSpaces cs with
  | '>' :: r => some ([], false, r)
  | '/' :: '>' :: r => some ([], true, r)
  | cs' => parseAttrsStep pa (scanName cs')

/-- Parse the attribute list of an open tag, up to `>` or `/>`; the fuel
bounds the number of attributes (one unit per attribute). -/
def parseAttrs : Nat → List Char → Option (List (String × String) × Bool × List Char)
  | 0, _ => none
  | f + 1, cs => parseAttrsCore (parseAttrs f) cs

/-- Build the element and attach the scanned tail. -/
def parseElemFinish (nm : List Char) (attrs : List (String × String))
    (tx : List Char) (ch : List Xml) (tres : Option (List Char × List Char)) :
    Option (Xml × List Char) :=
  match tres with
  | some (tl, cs9) => some (.elem ⟨nm⟩ attrs ⟨tx⟩ ch ⟨tl⟩, cs9)
  | none => none

/-- Parse the end tag `</nm>` (spaces allowed before `>`), then the tail. -/
def parseCloseTag (nm : List Char) (attrs : List (String × String))
    (tx : List Char) (ch : List Xml) : List Char → Option (Xml × List Char)
  | '<' :: '/' :: cs6 =>
      match scanName cs6 with
      | (nm2, cs7) =>
          if nm2 = nm then
            match skipSpaces cs7 with
            | '>' :: cs8 => parseElemFinish nm attrs tx ch (scanTextF (cs8.length + 1) cs8)
            | _ => none
          else none
  | _ => none

/-- After the children have been parsed, expect the end tag. -/
def parseElemLong (nm : List Char) (attrs : List (String × String))
    (tx : List Char) (cres : Option (List Xml × List Char)) :
    Option (Xml × List Char) :=
  match cres with
  | some (ch, cs5) => parseCloseTag nm attrs tx ch cs5
  | none => none

/-- After the element text has been scanned, parse children through `pc`. -/
def parseElemTextCont (pc : List Char → Option (List Xml × List Char))
    (nm : List Char) (attrs : List (String × String))
    (tres : Option (List Char × List Char)) : Option (Xml × List Char) :=
  match tres with
  | none => none
  | some (tx, cs4) => parseElemLong nm attrs tx (pc cs4)

/-- Dispatch on the attribute-parse result: a self-closing tag takes its
tail directly; otherwise text, children and the end tag follow. -/
def parseElemWithAttrs (pc : List Char → Option (List Xml × List Char))
    (nm : List Char) (ares : Option (List (String × String) × Bool × List Char)) :
    Option (Xml × List Char) :=
  match ares with
  | none => none
  | some (attrs, true, cs3) =>
      parseElemFinish nm attrs [] [] (scanTextF (cs3.length + 1) cs3)
  | some (attrs, false, cs3) =>
      parseElemTextCont pc nm attrs (scanTextF (cs3.length + 1) cs3)

/-- Parse one element starting at `<` — open tag, attributes, text, children
(through `pc`), end tag, and the tail character data following the end tag
(which stops at the next `<` or the end of input). -/
def parseElemCore (pc : List Char → Option (List Xml × List Char)) :
    List Char → Option (Xml × List Char)
  | '<' :: cs1 =>
      match scanName cs1 with
      | ([], _) => none
      | (nm, cs2) => parseElemWithAttrs pc nm (parseAttrs (cs2.length + 1) cs2)
  | _ => none

/-- Combine a parsed first sibling with the parse of the remaining ones. -/
def parseContentCons (xres : Option (Xml × List Char))
    (pcnext : List Char → Option (List Xml × List Char)) :
    Option (List Xml × List Char) :=
  match xres with
  | none => none
  | some (x, cs2) =>
      match pcnext cs2 with
      | none => none
      | some (xs, cs3) => some (x :: xs, cs3)

mutual

/-- Parse one element (fuel-indexed; the fuel bounds the element count). -/
def parseElem : Nat → List Char → Option (Xml × List Char)
  | 0, _ => none
  | fuel + 1, cs => parseElemCore (parseContent fuel) cs

/-- Parse a sequence of sibling elements until an end tag `</` is in view. -/
def parseContent : Nat → List Char → Option (List Xml × List Char)
  | 0, _ => none
  | fuel + 1, cs =>
      match cs with
      | '<' :: '/' :: rest => some ([], '<' :: '/' :: rest)
      | '<' :: rest => parseContentCons (parseElem fuel ('<' :: rest)) (parseContent fuel)
      | _ => none

end

/-- `ET.fromstring`: skip leading whitespace, parse the root element, and
require that nothing but whitespace follows it (that whitespace is dropped:
a parsed root has an empty tail, matching ElementTree). -/
def parseXml (s : String) : Option Xml :=
  let cs := skipSpaces s.data
  match parseElem (cs.length + 1) cs with
  | some (t, []) =>
      if (Xml.tail t).data.all isXmlSpace then some (t.setTail "") else none
  | _ => none

/-- `ET._escape_cdata`: `&`, `<`, `>` (and nothing else) escaped in
character data. -/
def escCdataChar (c : Char) : List Char :=
  if c = '&' then ['&', 'a', 'm', 'p', ';']
  else if c = '<' then ['&', 'l', 't', ';']
  else if c = '>' then ['&', 'g', 't', ';']
  else [c]

def escCdata (s : String) : List Char := s.data.flatMap escCdataChar

/-- `ET._escape_attrib`: additionally escape `"` and whitespace controls. -/
def escAttrChar (c : Char) : List Char :=
  if c = '&' then ['&', 'a', 'm', 'p', ';']
  else if c = '<' then ['&', 'l', 't', ';']
  else if c = '>' then ['&', 'g', 't', ';']
  else if c = '"' then ['&', 'q', 'u', 'o', 't', ';']
  else if c = '\r' then ['&', '#', '1', '3', ';']
  else if c = '\n' then ['&', '#', '1', '0', ';']
  else if c = '\t' then ['&', '#', '0', '9', ';']
  else [c]

def escAttr (s : String) : List Char := s.data.flatMap escAttrChar

def serAttrs (attrs : List (String × String)) : List Char :=
  attrs.flatMap fun p => ' ' :: (p.1.data ++ '=' :: '"' :: (escAttr p.2 ++ ['"']))

/-- `ET.tostring` uses the short form `<t />` exactly when the element has no
text and no children. -/
def isShortElem (text : String) (children : List Xml) : Bool :=
  text = "" && children.isEmpty

mutual

/-- `ET.tostring` of one element (including its tail), as characters. -/
def serElemChars : Xml → List Char
  | .elem tag attrs text children tail =>
      '<' :: (tag.data ++ serAttrs attrs ++
        (if isShortElem text children then
          ' ' :: '/' :: '>' :: escCdata tail
        else
          '>' :: (escCdata text ++ serListChars children ++
            ('<' :: '/' :: (tag.data ++ ('>' :: escCdata tail))))))

def serListChars : List Xml → List Char
  | [] => []
  | x :: xs => serElemChars x ++ serListChars xs

end

/-- `ET.tostring(...).decode('utf-8')`. -/
def tostring (t : Xml) : String := ⟨serElemChars t⟩

/-- `Client._prepare_xml` (`client.py` lines 197-199): parse the payload and
reserialize the tree; `none` models a propagated `ParseError`. -/
def prepareXml (s : String) : Option String := (parseXml s).map tostring

/-- `elem.find(tag)`: the first direct child with the given tag. -/
def findChild (t : Xml) (tag : String) : Option Xml :=
  (Xml.children t).find? fun c => Xml.tag c == tag

/-- `elem.text` as the Python attribute: `None` (here `none`) when empty. -/
def textOpt (t : Xml) : Option String :=
  if Xml.text t = "" then none else some (Xml.text t)

/-- Outcome of `_check_xml_response`: the input string passed through, or the
raised typed error with the provider code and message. -/
inductive XmlCheckResult where
  | ok (s : String)
  | raised (code : Option String) (message : Option String)

/-- `Client._check_xml_response` (`client.py` lines 180-195); the outer
`none` models a propagated builtin exception (parse error, attribute error on
a missing child, or type error on a `None` message). -/
def checkXmlResponse (s : String) : Option XmlCheckResult :=
  match parseXml s with
  | none => none
  | some root =>
      if Xml.tag root = "ErrorResponse" then
        match findChild root "Head" with
        | none => none
        | some head =>
            match findChild head "ErrorMessage" with
            | none => none
            | some em =>
                match findChild head "ErrorCode" with
                | none => none
                | some ec =>
                    match findChild root "Body" with
                    | none => some (.raised (textOpt ec) (textOpt em))
                    | some body =>
                        match textOpt em with
                        | none => none
                        | some m =>
                            some (.raised (textOpt ec)
                              (some (m ++ "\n" ++ tostring body)))
      else some (.ok s)

mutual

/-- Fuel cost of parsing one serialized element. -/
def sizeX : Xml → Nat
  | .elem _ _ _ ch _ => sizeL ch + 2

/-- Fuel cost of parsing a serialized child list. -/
def sizeL : List Xml → Nat
  | [] => 0
  | x :: xs => sizeX x + sizeL xs

end

def validName (s : String) : Bool := !s.data.isEmpty && s.data.all isNameChar

/-- `true` when the input is exhausted or positioned at a `<`: the contexts
in which a text scan stops cleanly. -/
def headLt : List Char → Bool
  | [] => true
  | c :: _ => c = '<'

/-- `true` when the input does not continue with a name character: the
contexts in which a name scan stops cleanly. -/
def headNotName : List Char → Bool
  | [] => true
  | c :: _ => !isNameChar c

mutual

/-- Well-formedness of a tree as produced by the parser: tag and attribute
names are non-empty runs of name characters. -/
def wfX : Xml → Bool
  | .elem tag attrs _ ch _ =>
      validName tag && attrs.all (fun p => validName p.1) && wfL ch

def wfL : List Xml → Bool
  | [] => true
  | x :: xs => wfX x && wfL xs

end

mutual

/-- No carriage return in any text or tail of the tree.  `ET.tostring`
writes `\r` in character data unescaped, and reparsing normalizes it to
`\n`, so carriage returns in character data do not survive a round trip. -/
def noCRX : Xml → Bool
  | .elem _ _ tx ch tl =>
      !tx.data.contains '\r' && !tl.data.contains '\r' && noCRL ch

def noCRL : List Xml → Bool
  | [] => true
  | x :: xs => noCRX x && noCRL xs

end

end Lazada

namespace Lazada

/-- C1: the signature engine on `{"Action": "GetOrders", "UserID": "u1"}` with
secret `"s3cr3t"` produces exactly the lowercase hex HMAC-SHA256 digest, keyed
with `"s3cr3t"`, of `"Action=GetOrders&UserID=u1"`, which is the sort-encode-
replace canonicalization of that map (under either input order); and in
general `sign` is HMAC-SHA256 of the sort-encode-replace canonical string. -/
theorem sign_pinned_scenario :
    concatenatedString [("Action", "GetOrders"), ("UserID", "u1")] =
      "Action=GetOrders&UserID=u1" ∧
    concatenatedString [("UserID", "u1"), ("Action", "GetOrders")] =
      "Action=GetOrders&UserID=u1" ∧
    sign [("Action", "GetOrders"), ("UserID", "u1")] "s3cr3t" =
      "38a7cf30dfcff602d4dbc6da8da82418d2581e3f4ce5e4561c765bc04daba7b9" ∧
    hmacHex "s3cr3t" "Action=GetOrders&UserID=u1" =
      "38a7cf30dfcff602d4dbc6da8da82418d2581e3f4ce5e4561c765bc04daba7b9" ∧
    ∀ (ps : List (String × String)) (key : String),
      sign ps key = hmacHex key (replacePlus (urlencodePairs (pySorted ps))) := by
  refine ⟨by decide, by decide, ?_, ?_, fun ps key => rfl⟩
  · set_option maxRecDepth 10000 in decide
  · set_option maxRecDepth 10000 in decide

theorem dlookup_pyDictSet {α : Type} (d : List (String × α)) (k k' : String) (v : α) :
    dlookup (pyDictSet d k v) k' = if k = k' then some v else dlookup d k' := by
  induction d with
  | nil => simp [pyDictSet, dlookup]
  | cons p rest ih =>
      by_cases h : p.1 = k
      · by_cases h' : k = k' <;> simp [pyDictSet, dlookup, h, h']
      · have h2 : ¬ p.1 = k' ∨ ¬ k = k' := by
          by_cases hk : k = k'
          · exact Or.inl (hk ▸ h)
          · exact Or.inr hk
        rcases h2 with h2 | h2
        · simp [pyDictSet, dlookup, h, h2, ih]
        · simp [pyDictSet, dlookup, h, h2, ih]

theorem dlookup_eq_none_of_not_mem {α : Type} (d : List (String × α)) (k : String)
    (h : k ∉ dkeys d) : dlookup d k = none := by
  induction d with
  | nil => rfl
  | cons p rest ih =>
      simp only [dkeys, List.map_cons, List.mem_cons, not_or] at h
      have h1 : ¬ p.1 = k := fun hh => h.1 hh.symm
      simp [dlookup, h1, ih (by simpa [dkeys] using h.2)]

theorem dlookup_pyUpdate {α : Type} (d e : List (String × α)) (k : String)
    (he : (dkeys e).Nodup) :
    dlookup (pyUpdate d e) k =
      match dlookup e k with
      | some v => some v
      | none => dlookup d k := by
  induction e generalizing d with
  | nil => simp [pyUpdate, dlookup]
  | cons p rest ih =>
      simp only [dkeys, List.map_cons, List.nodup_cons] at he
      have step : pyUpdate d (p :: rest) = pyUpdate (pyDictSet d p.1 p.2) rest := rfl
      rw [step, ih _ he.2]
      by_cases h : p.1 = k
      · have hnm : k ∉ dkeys rest := h ▸ (by simpa [dkeys] using he.1)
        rw [dlookup_eq_none_of_not_mem rest k hnm]
        simp [dlookup, h, dlookup_pyDictSet]
      · simp only [dlookup, h, if_false]
        cases hr : dlookup rest k
        · simp [dlookup_pyDictSet, h]
        · simp

theorem dlookup_pyMerge_pair {α : Type} (a b : List (String × α)) (k : String)
    (ha : (dkeys a).Nodup) (hb : (dkeys b).Nodup) :
    dlookup (pyMerge [a, b]) k =
      match dlookup b k with
      | some v => some v
      | none => dlookup a k := by
  have h1 : pyMerge [a, b] = pyUpdate (pyUpdate [] a) b := rfl
  rw [h1, dlookup_pyUpdate _ _ _ hb]
  have h2 : dlookup (pyUpdate [] a) k = dlookup a k := by
    rw [dlookup_pyUpdate _ _ _ ha]
    cases dlookup a k <;> simp [dlookup]
  rw [h2]

theorem baseParameters_keys (email version action format timestamp : String) :
    dkeys (baseParameters email version action format timestamp) =
      ["UserID", "Version", "Action", "Format", "Timestamp"] := rfl

theorem baseParameters_nodup (email version action format timestamp : String) :
    (dkeys (baseParameters email version action format timestamp)).Nodup := by
  rw [baseParameters_keys]; decide

/-- C3: `_merge(a, b)` gives a map where keys only in `a` keep `a`'s value and
keys in both take `b`'s value; the embedding of `_merge` is a pure function of
its arguments (it writes only the fresh result dict), so `a` and `b` are
unchanged by the call. -/
theorem merge_lookup_spec {α : Type} (a b : List (String × α)) (k : String) (v w : α)
    (ha : (dkeys a).Nodup) (hb : (dkeys b).Nodup) :
    (dlookup a k = some v → dlookup b k = none → dlookup (pyMerge [a, b]) k = some v) ∧
    (dlookup b k = some w → dlookup (pyMerge [a, b]) k = some w) := by
  constructor
  · intro hva hnb
    rw [dlookup_pyMerge_pair a b k ha hb, hnb, hva]
  · intro hwb
    rw [dlookup_pyMerge_pair a b k ha hb, hwb]

theorem merge_lookup_spec_witness :
    dlookup (pyMerge [[("x", "1"), ("y", "2")], [("y", "3")]]) "x" = some "1" ∧
    dlookup (pyMerge [[("x", "1"), ("y", "2")], [("y", "3")]]) "y" = some "3" :=
  ⟨(merge_lookup_spec [("x", "1"), ("y", "2")] [("y", "3")] "x" "1" "3"
      (by decide) (by decide)).1 (by decide) (by decide),
   (merge_lookup_spec [("x", "1"), ("y", "2")] [("y", "3")] "y" "1" "3"
      (by decide) (by decide)).2 (by decide)⟩

/-- C9: caller-supplied `params` entries override the automatically built
standard parameters in the map that gets signed
(`parameters = _merge(parameters, request_options['params'])`). -/
theorem params_override_standard (email version action format timestamp : String)
    (params : List (String × String)) (k v : String)
    (hk : (dkeys params).Nodup) (hv : dlookup params k = some v) :
    dlookup (buildParameters email version action format timestamp (some params)) k =
      some v := by
  unfold buildParameters
  rw [dlookup_pyMerge_pair _ _ _ (baseParameters_nodup email version action format timestamp) hk, hv]

theorem params_override_standard_witness :
    dlookup (buildParameters "e@x" "1.0" "GetOrders" "json" "T0"
        (some [("Action", "Overridden")])) "Action" = some "Overridden" :=
  params_override_standard "e@x" "1.0" "GetOrders" "json" "T0"
    [("Action", "Overridden")] "Action" "Overridden" (by decide) (by decide)

/-- C5 (amended): the final parameter map contains all six standard keys, and
the `Signature` value is the digest of the canonical string of the parameter
map from before the `Signature` assignment; provided the caller's `params` do
not themselves contain a `"Signature"` key, that pre-assignment map has no
`Signature` entry, so `Signature` is not part of the signed string. -/
theorem signed_parameters_spec (apiKey email version action format timestamp : String)
    (params : Option (List (String × String)))
    (hnd : ∀ p, params = some p → (dkeys p).Nodup)
    (hsig : ∀ p, params = some p → dlookup p "Signature" = none) :
    (∀ k, k ∈ ["UserID", "Version", "Action", "Format", "Timestamp", "Signature"] →
        (dlookup (signedParameters apiKey email version action format timestamp params)
          k).isSome) ∧
    dlookup (signedParameters apiKey email version action format timestamp params)
        "Signature" =
      some (sign (buildParameters email version action format timestamp params) apiKey) ∧
    dlookup (buildParameters email version action format timestamp params)
        "Signature" = none := by
  have hpre : dlookup (buildParameters email version action format timestamp params)
      "Signature" = none := by
    cases hp : params with
    | none => simp [buildParameters, dlookup, baseParameters]
    | some p =>
        simp only [buildParameters]
        rw [dlookup_pyMerge_pair _ _ _
          (baseParameters_nodup email version action format timestamp) (hnd p hp), hsig p hp]
        simp [dlookup, baseParameters]
  have hbase : ∀ k, k ∈ ["UserID", "Version", "Action", "Format", "Timestamp"] →
      (dlookup (buildParameters email version action format timestamp params) k).isSome := by
    intro k hk
    cases hp : params with
    | none =>
        fin_cases hk <;> simp [buildParameters, dlookup, baseParameters]
    | some p =>
        simp only [buildParameters]
        rw [dlookup_pyMerge_pair _ _ _
          (baseParameters_nodup email version action format timestamp) (hnd p hp)]
        cases dlookup p k with
        | some v => simp
        | none => fin_cases hk <;> simp [dlookup, baseParameters]
  refine ⟨?_, ?_, hpre⟩
  · intro k hk
    simp only [signedParameters, dlookup_pyDictSet]
    fin_cases hk
    · rw [if_neg (by decide)]; exact hbase "UserID" (by simp)
    · rw [if_neg (by decide)]; exact hbase "Version" (by simp)
    · rw [if_neg (by decide)]; exact hbase "Action" (by simp)
    · rw [if_neg (by decide)]; exact hbase "Format" (by simp)
    · rw [if_neg (by decide)]; exact hbase "Timestamp" (by simp)
    · rw [if_pos rfl]; simp
  · simp [signedParameters, dlookup_pyDictSet]

theorem signed_parameters_spec_witness :
    (∀ k, k ∈ ["UserID", "Version", "Action", "Format", "Timestamp", "Signature"] →
        (dlookup (signedParameters "s3cr3t" "e@x" "1.0" "GetOrders" "json" "T0"
          (some [("from", "a")])) k).isSome) ∧
    dlookup (signedParameters "s3cr3t" "e@x" "1.0" "GetOrders" "json" "T0"
        (some [("from", "a")])) "Signature" =
      some (sign (buildParameters "e@x" "1.0" "GetOrders" "json" "T0"
        (some [("from", "a")])) "s3cr3t") ∧
    dlookup (buildParameters "e@x" "1.0" "GetOrders" "json" "T0"
        (some [("from", "a")])) "Signature" = none :=
  signed_parameters_spec "s3cr3t" "e@x" "1.0" "GetOrders" "json" "T0"
    (some [("from", "a")])
    (fun p hp => by cases hp; decide) (fun p hp => by cases hp; decide)

/-- C5 counterexample to the claim as stated: when the caller's `params`
themselves contain a `"Signature"` key, that entry is part of the parameter
map that gets signed — the canonical signed string contains `Signature=x` —
contradicting "the Signature field is never part of the signed string". -/
theorem signature_in_signed_string_counterexample :
    dlookup (buildParameters "e@x" "1.0" "GetOrders" "json" "2020-01-01T00:00:00+07:00"
        (some [("Signature", "x")])) "Signature" = some "x" ∧
    concatenatedString (buildParameters "e@x" "1.0" "GetOrders" "json"
        "2020-01-01T00:00:00+07:00" (some [("Signature", "x")])) =
      "Action=GetOrders&Format=json&Signature=x&Timestamp=2020-01-01T00%3A00%3A00%2B07%3A00&UserID=e%40x&Version=1.0" := by
  constructor
  · decide
  · set_option maxRecDepth 10000 in decide

theorem dlookup_filter_mem {α : Type} (d : List (String × α)) (keys : List String)
    (k : String) :
    dlookup (d.filter fun p => decide (p.1 ∈ keys)) k =
      if k ∈ keys then dlookup d k else none := by
  induction d with
  | nil => simp [dlookup]
  | cons p rest ih =>
      by_cases hf : p.1 ∈ keys
      · by_cases hk : p.1 = k
        · subst hk
          simp [dlookup, hf, ih]
        · simp [dlookup, hf, hk, ih]
      · by_cases hk : p.1 = k
        · subst hk
          simp [dlookup, hf, ih]
        · simp [dlookup, hf, hk, ih]

theorem dlookup_coerceBools (d : List (String × PVal)) (k : String) :
    dlookup (coerceBools d) k = (dlookup d k).map coerceBool := by
  induction d with
  | nil => simp [coerceBools, dlookup]
  | cons p rest ih =>
      by_cases hk : p.1 = k
      · simp [coerceBools, dlookup, hk]
      · simpa [coerceBools, dlookup, hk] using ih

theorem heapGet_set_self (h : Heap) (r : Nat) (d : List (String × PVal))
    (hr : r < h.length) : heapGet (h.set r d) r = d := by
  induction h generalizing r with
  | nil => simp at hr
  | cons x t ih =>
      cases r with
      | zero => simp [heapGet]
      | succ n =>
          simp only [List.length_cons, Nat.succ_lt_succ_iff] at hr
          simpa [heapGet, List.set] using ih n hr

theorem selectOptions_lookup_false (clientOpts opts : List (String × OVal))
    (keys : List String) (k : String) :
    dlookup (selectOptions clientOpts opts keys false) k =
      if k ∈ keys then dlookup (pyMerge [clientOpts, opts]) k else none := by
  unfold selectOptions
  have he : (fun (p : String × OVal) =>
      if (false : Bool) = true then decide (p.1 ∉ keys) else decide (p.1 ∈ keys)) =
      (fun p => decide (p.1 ∈ keys)) := rfl
  rw [he, dlookup_filter_mem]

theorem selectOptions_request_params (clientOpts opts : List (String × OVal))
    (r : Nat) (hp : dlookup (pyMerge [clientOpts, opts]) "params" = some (OVal.ref r)) :
    dlookup (selectOptions clientOpts opts REQUEST_OPTIONS false) "params" =
      some (OVal.ref r) := by
  rw [selectOptions_lookup_false]
  simpa [REQUEST_OPTIONS] using hp

/-- C6: request-option parsing replaces every boolean inside the `params`
dict with its JSON text (`"true"`/`"false"`) before the parameters are signed
and transmitted, and leaves non-boolean values unchanged. -/
theorem parse_request_options_coerces_bools (h : Heap)
    (clientOpts opts : List (String × OVal)) (r : Nat)
    (hp : dlookup (pyMerge [clientOpts, opts]) "params" = some (OVal.ref r))
    (hr : r < h.length) :
    dlookup (parseRequestOptions h clientOpts opts).2 "params" = some (OVal.ref r) ∧
    heapGet (parseRequestOptions h clientOpts opts).1 r = coerceBools (heapGet h r) ∧
    (∀ k b, dlookup (heapGet h r) k = some (PVal.bool b) →
      dlookup (heapGet (parseRequestOptions h clientOpts opts).1 r) k =
        some (PVal.str (jsonDumpsBool b))) ∧
    (∀ k v, dlookup (heapGet h r) k = some v → (∀ b, v ≠ PVal.bool b) →
      dlookup (heapGet (parseRequestOptions h clientOpts opts).1 r) k = some v) := by
  have hsel := selectOptions_request_params clientOpts opts r hp
  have hres : parseRequestOptions h clientOpts opts =
      (h.set r (coerceBools (heapGet h r)),
       selectOptions clientOpts opts REQUEST_OPTIONS false) := by
    unfold parseRequestOptions
    dsimp only
    rw [hsel]
  refine ⟨?_, ?_, ?_, ?_⟩
  · rw [hres]; exact hsel
  · rw [hres]; exact heapGet_set_self h r _ hr
  · intro k b hb
    rw [hres]
    simp only [heapGet_set_self h r _ hr, dlookup_coerceBools, hb, Option.map_some]
    rfl
  · intro k v hv hnb
    rw [hres]
    simp only [heapGet_set_self h r _ hr, dlookup_coerceBools, hv, Option.map_some]
    cases v with
    | bool b => exact absurd rfl (hnb b)
    | str s => rfl
    | int n => rfl

theorem parse_request_options_coerces_bools_witness :
    dlookup (parseRequestOptions [[("active", PVal.bool true), ("q", PVal.str "s")]]
        [] [("params", OVal.ref 0)]).2 "params" = some (OVal.ref 0) ∧
    heapGet (parseRequestOptions [[("active", PVal.bool true), ("q", PVal.str "s")]]
        [] [("params", OVal.ref 0)]).1 0 =
      coerceBools (heapGet [[("active", PVal.bool true), ("q", PVal.str "s")]] 0) ∧
    dlookup (heapGet (parseRequestOptions [[("active", PVal.bool true),
        ("q", PVal.str "s")]] [] [("params", OVal.ref 0)]).1 0) "active" =
      some (PVal.str (jsonDumpsBool true)) ∧
    dlookup (heapGet (parseRequestOptions [[("active", PVal.bool true),
        ("q", PVal.str "s")]] [] [("params", OVal.ref 0)]).1 0) "q" =
      some (PVal.str "s") := by
  have h := parse_request_options_coerces_bools
    [[("active", PVal.bool true), ("q", PVal.str "s")]] [] [("params", OVal.ref 0)] 0
    (by decide) (by decide)
  exact ⟨h.1, h.2.1, h.2.2.1 "active" true (by decide),
    h.2.2.2 "q" (PVal.str "s") (by decide) (by intro b hb; cases hb)⟩

/-- C10: boolean coercion happens in place on the caller's own `params` dict:
option selection copies the dict reference, not the dict, so after parsing,
the heap cell behind the caller's reference holds `"true"`/`"false"` strings
where the caller's map held booleans. -/
theorem parse_request_options_mutates_caller (h : Heap)
    (clientOpts opts : List (String × OVal)) (r : Nat) (k : String) (b : Bool)
    (hp : dlookup (pyMerge [clientOpts, opts]) "params" = some (OVal.ref r))
    (hr : r < h.length)
    (hb : dlookup (heapGet h r) k = some (PVal.bool b)) :
    (parseRequestOptions h clientOpts opts).1 =
      h.set r (coerceBools (heapGet h r)) ∧
    dlookup (heapGet (parseRequestOptions h clientOpts opts).1 r) k =
      some (PVal.str (jsonDumpsBool b)) := by
  have hsel := selectOptions_request_params clientOpts opts r hp
  have hres : parseRequestOptions h clientOpts opts =
      (h.set r (coerceBools (heapGet h r)),
       selectOptions clientOpts opts REQUEST_OPTIONS false) := by
    unfold parseRequestOptions
    dsimp only
    rw [hsel]
  constructor
  · rw [hres]
  · rw [hres]
    simp only [heapGet_set_self h r _ hr, dlookup_coerceBools, hb, Option.map_some]
    rfl

theorem parse_request_options_mutates_caller_witness :
    (parseRequestOptions [[("flag", PVal.bool false)]] []
        [("params", OVal.ref 0)]).1 =
      [[("flag", PVal.bool false)]].set 0
        (coerceBools (heapGet [[("flag", PVal.bool false)]] 0)) ∧
    dlookup (heapGet (parseRequestOptions [[("flag", PVal.bool false)]] []
        [("params", OVal.ref 0)]).1 0) "flag" =
      some (PVal.str (jsonDumpsBool false)) :=
  parse_request_options_mutates_caller [[("flag", PVal.bool false)]] []
    [("params", OVal.ref 0)] 0 "flag" false (by decide) (by decide) (by decide)

theorem appendErrorsLoop_str (elems : List Json) (errsVal : Json) (ms : String) :
    appendErrorsLoop errsVal elems (.str ms) =
      .ok (.str (ms ++ repeatStr elems.length ("\n" ++ pythonStr errsVal))) := by
  induction elems generalizing ms with
  | nil => simp [appendErrorsLoop, repeatStr]
  | cons x rest ih =>
      simp only [appendErrorsLoop, strConcatPy, List.length_cons, repeatStr]
      rw [ih]
      have hassoc : ∀ a b c : String, a ++ b ++ c = a ++ (b ++ c) := by
        intro a b c
        apply String.ext
        simp
      rw [hassoc]

/-- C2 (amended): a JSON object without `ErrorResponse` is returned
unchanged; with an `ErrorResponse` envelope the normalizer raises the typed
error carrying `Head.ErrorCode` and `Head.ErrorMessage`, and when a `Body`
is present the string form of the `Body.Errors` sequence is appended once
per element of that sequence. -/
theorem check_json_response_spec (fields erF headF bodyF : List (String × Json))
    (c m : Json) (es : List Json) :
    (dlookup fields "ErrorResponse" = none →
      checkJsonResponse (.obj fields) = .ok (.obj fields)) ∧
    (dlookup fields "ErrorResponse" = some (.obj erF) →
     dlookup erF "Head" = some (.obj headF) →
     dlookup headF "ErrorCode" = some c →
     dlookup headF "ErrorMessage" = some m →
     dlookup erF "Body" = none →
     checkJsonResponse (.obj fields) = .error (.apiError c m)) ∧
    (∀ ms, m = .str ms →
     dlookup fields "ErrorResponse" = some (.obj erF) →
     dlookup erF "Head" = some (.obj headF) →
     dlookup headF "ErrorCode" = some c →
     dlookup headF "ErrorMessage" = some m →
     dlookup erF "Body" = some (.obj bodyF) →
     dlookup bodyF "Errors" = some (.arr es) →
     checkJsonResponse (.obj fields) =
       .error (.apiError c
         (.str (ms ++ repeatStr es.length ("\n" ++ pythonStr (.arr es)))))) := by
  refine ⟨?_, ?_, ?_⟩
  · intro h
    simp [checkJsonResponse, jsonContainsKey, h]
  · intro hER hHead hEC hEM hBody
    simp [checkJsonResponse, jsonContainsKey, getItem, bodyMessage,
      hER, hHead, hEC, hEM, hBody]
  · intro ms hm hER hHead hEC hEM hBody hErrs
    subst hm
    simp [checkJsonResponse, jsonContainsKey, getItem, bodyMessage, jsonIter,
      hER, hHead, hEC, hEM, hBody, hErrs, appendErrorsLoop_str]

theorem check_json_response_spec_witness :
    checkJsonResponse (.obj [("a", .str "b")]) = .ok (.obj [("a", .str "b")]) ∧
    checkJsonResponse (.obj [("ErrorResponse", .obj [("Head", .obj
        [("ErrorCode", .str "10"), ("ErrorMessage", .str "Invalid signature")])])]) =
      .error (.apiError (.str "10") (.str "Invalid signature")) ∧
    checkJsonResponse (.obj [("ErrorResponse", .obj
        [("Head", .obj [("ErrorCode", .str "7"), ("ErrorMessage", .str "E")]),
         ("Body", .obj [("Errors", .arr [.str "x"])])])]) =
      .error (.apiError (.str "7")
        (.str ("E" ++ repeatStr 1 ("\n" ++ pythonStr (Json.arr [.str "x"]))))) :=
  ⟨(check_json_response_spec [("a", .str "b")] [] [] [] .null .null []).1 rfl,
   (check_json_response_spec
      [("ErrorResponse", .obj [("Head", .obj [("ErrorCode", .str "10"),
        ("ErrorMessage", .str "Invalid signature")])])]
      [("Head", .obj [("ErrorCode", .str "10"),
        ("ErrorMessage", .str "Invalid signature")])]
      [("ErrorCode", .str "10"), ("ErrorMessage", .str "Invalid signature")] []
      (.str "10") (.str "Invalid signature") []).2.1 rfl rfl rfl rfl rfl,
   (check_json_response_spec
      [("ErrorResponse", .obj
        [("Head", .obj [("ErrorCode", .str "7"), ("ErrorMessage", .str "E")]),
         ("Body", .obj [("Errors", .arr [.str "x"])])])]
      [("Head", .obj [("ErrorCode", .str "7"), ("ErrorMessage", .str "E")]),
       ("Body", .obj [("Errors", .arr [.str "x"])])]
      [("ErrorCode", .str "7"), ("ErrorMessage", .str "E")]
      [("Errors", .arr [.str "x"])]
      (.str "7") (.str "E") [.str "x"]).2.2 "E" rfl rfl rfl rfl rfl rfl rfl⟩

/-- C2 counterexample to "appended (once)": with two entries in
`Body.Errors`, the loop appends the string form of the whole sequence twice,
so the raised message is not the once-appended form. -/
theorem check_json_errors_once_counterexample :
    apiErrorStrParts (checkJsonResponse (.obj [("ErrorResponse", .obj
        [("Head", .obj [("ErrorCode", .str "10"), ("ErrorMessage", .str "bad")]),
         ("Body", .obj [("Errors", .arr [.str "e1", .str "e2"])])])])) =
      some ("10", "bad\n['e1', 'e2']\n['e1', 'e2']") ∧
    ("bad\n['e1', 'e2']\n['e1', 'e2']" : String) ≠
      "bad" ++ "\n" ++ pythonStr (Json.arr [.str "e1", .str "e2"]) := by
  constructor
  · rfl
  · decide

theorem getD_mem_of_lt (l : List String) (i : Nat) (hi : i < l.length) :
    l.getD i "" ∈ l := by
  induction l generalizing i with
  | nil => simp at hi
  | cons x t ih =>
      cases i with
      | zero => simp
      | succ n =>
          simp only [List.length_cons, Nat.succ_lt_succ_iff] at hi
          exact List.mem_cons_of_mem x (ih n hi)

theorem getRandomProxyLoop_sound (pool : List String) (stream : Nat → Nat)
    (fuel i : Nat) (p : String)
    (h : getRandomProxyLoop pool stream fuel i = some p) : p ∈ pool ∧ p ≠ "" := by
  induction fuel generalizing i with
  | zero => simp [getRandomProxyLoop] at h
  | succ f ih =>
      rw [getRandomProxyLoop] at h
      by_cases hp : pool.getD (stream i % pool.length) "" = ""
      · rw [if_pos hp] at h
        exact ih (i + 1) h
      · rw [if_neg hp] at h
        cases h
        refine ⟨?_, hp⟩
        have hlen : 0 < pool.length := by
          rcases pool with _ | ⟨x, t⟩
          · simp [List.getD] at hp
          · simp
        exact getD_mem_of_lt pool _ (Nat.mod_lt _ hlen)

theorem getRandomProxyLoop_term (pool : List String) (stream : Nat → Nat)
    (n i0 : Nat) (h : pool.getD (stream (i0 + n) % pool.length) "" ≠ "") :
    ∃ p, getRandomProxyLoop pool stream (n + 1) i0 = some p := by
  induction n generalizing i0 with
  | zero =>
      rw [getRandomProxyLoop]
      rw [if_neg (by simpa using h)]
      exact ⟨_, rfl⟩
  | succ n ih =>
      rw [getRandomProxyLoop]
      by_cases hp : pool.getD (stream i0 % pool.length) "" = ""
      · rw [if_pos hp]
        exact ih (i0 + 1) (by
          have : i0 + 1 + n = i0 + (n + 1) := by omega
          rw [this]; exact h)
      · rw [if_neg hp]
        exact ⟨_, rfl⟩

theorem getRandomProxyLoop_stuck (pool : List String) (stream : Nat → Nat)
    (hall : ∀ x ∈ pool, x = "") (fuel i : Nat) :
    getRandomProxyLoop pool stream fuel i = none := by
  induction fuel generalizing i with
  | zero => rfl
  | succ f ih =>
      rw [getRandomProxyLoop]
      have hp : pool.getD (stream i % pool.length) "" = "" := by
        rcases pool with _ | ⟨x, t⟩
        · simp [List.getD]
        · exact hall _ (getD_mem_of_lt _ _ (Nat.mod_lt _ (by simp)))
      rw [if_pos hp]
      exact ih (i + 1)

/-- C8: proxy selection returns `None` on an empty pool; whenever the loop
terminates it returns a truthy element of the pool, never a falsy one; it
does terminate as soon as the random source draws a truthy entry (an event
of probability one when the pool has a truthy entry); and on a non-empty
all-falsy pool it never terminates, whatever the fuel. -/
theorem get_random_proxy_spec (pool : List String) (stream : Nat → Nat)
    (fuel i : Nat) (p : String) :
    (pool = [] → getRandomProxy pool stream fuel = some none) ∧
    (getRandomProxy pool stream fuel = some (some p) → p ∈ pool ∧ p ≠ "") ∧
    (pool ≠ [] → pool.getD (stream i % pool.length) "" ≠ "" →
      ∃ f q, getRandomProxy pool stream f = some (some q)) ∧
    (pool ≠ [] → (∀ x ∈ pool, x = "") → getRandomProxy pool stream fuel = none) := by
  refine ⟨?_, ?_, ?_, ?_⟩
  · intro h
    subst h
    rfl
  · intro h
    unfold getRandomProxy at h
    by_cases hlen : pool.length = 0
    · rw [if_pos hlen] at h
      simp at h
    · rw [if_neg hlen] at h
      cases hl : getRandomProxyLoop pool stream fuel 0 with
      | none => rw [hl] at h; simp at h
      | some q =>
          rw [hl] at h
          simp only [Option.some_inj] at h
          cases h
          exact getRandomProxyLoop_sound pool stream fuel 0 _ hl
  · intro hne htr
    obtain ⟨q, hq⟩ := getRandomProxyLoop_term pool stream i 0 (by simpa using htr)
    refine ⟨i + 1, q, ?_⟩
    unfold getRandomProxy
    rw [if_neg (by simpa using hne), hq]
  · intro hne hall
    unfold getRandomProxy
    rw [if_neg (by simpa using hne),
      getRandomProxyLoop_stuck pool stream hall fuel 0]

/-- C4: a well-formed XML response whose root tag is not `ErrorResponse` is
returned as the original input string itself (not a reserialized tree); an
`ErrorResponse` root raises the typed error with code `Head/ErrorCode` text
and message `Head/ErrorMessage` text, with the serialized `Body` XML
appended when a `Body` element exists. -/
theorem check_xml_response_spec (s : String) (t head em ec : Xml) (m : String) :
    (parseXml s = some t → Xml.tag t ≠ "ErrorResponse" →
      checkXmlResponse s = some (.ok s)) ∧
    (parseXml s = some t → Xml.tag t = "ErrorResponse" →
     findChild t "Head" = some head →
     findChild head "ErrorMessage" = some em →
     findChild head "ErrorCode" = some ec →
     findChild t "Body" = none →
     checkXmlResponse s = some (.raised (textOpt ec) (textOpt em))) ∧
    (∀ body, parseXml s = some t → Xml.tag t = "ErrorResponse" →
     findChild t "Head" = some head →
     findChild head "ErrorMessage" = some em →
     findChild head "ErrorCode" = some ec →
     findChild t "Body" = some body →
     textOpt em = some m →
     checkXmlResponse s =
       some (.raised (textOpt ec) (some (m ++ "\n" ++ tostring body)))) := by
  refine ⟨?_, ?_, ?_⟩
  · intro hp ht
    simp [checkXmlResponse, hp, ht]
  · intro hp ht hh hm hc hb
    simp [checkXmlResponse, hp, ht, hh, hm, hc, hb]
  · intro body hp ht hh hm hc hb htxt
    simp [checkXmlResponse, hp, ht, hh, hm, hc, hb, htxt]

theorem check_xml_response_spec_witness :
    checkXmlResponse "<Ok><X /></Ok>" = some (.ok "<Ok><X /></Ok>") ∧
    checkXmlResponse "<ErrorResponse><Head><ErrorCode>10</ErrorCode><ErrorMessage>bad</ErrorMessage></Head></ErrorResponse>" =
      some (.raised (textOpt (.elem "ErrorCode" [] "10" [] ""))
        (textOpt (.elem "ErrorMessage" [] "bad" [] ""))) ∧
    checkXmlResponse "<ErrorResponse><Head><ErrorCode>10</ErrorCode><ErrorMessage>bad</ErrorMessage></Head><Body><E>x</E></Body></ErrorResponse>" =
      some (.raised (textOpt (.elem "ErrorCode" [] "10" [] ""))
        (some ("bad" ++ "\n" ++ tostring (.elem "Body" [] "" [.elem "E" [] "x" [] ""] "")))) :=
  ⟨(check_xml_response_spec "<Ok><X /></Ok>"
      (.elem "Ok" [] "" [.elem "X" [] "" [] ""] "")
      (.elem "X" [] "" [] "") (.elem "X" [] "" [] "") (.elem "X" [] "" [] "") "").1
      rfl (by decide),
   (check_xml_response_spec
      "<ErrorResponse><Head><ErrorCode>10</ErrorCode><ErrorMessage>bad</ErrorMessage></Head></ErrorResponse>"
      (.elem "ErrorResponse" []  ""
        [.elem "Head" [] ""
          [.elem "ErrorCode" [] "10" [] "", .elem "ErrorMessage" [] "bad" [] ""] ""] "")
      (.elem "Head" [] ""
        [.elem "ErrorCode" [] "10" [] "", .elem "ErrorMessage" [] "bad" [] ""] "")
      (.elem "ErrorMessage" [] "bad" [] "")
      (.elem "ErrorCode" [] "10" [] "") "bad").2.1 rfl rfl rfl rfl rfl rfl,
   (check_xml_response_spec
      "<ErrorResponse><Head><ErrorCode>10</ErrorCode><ErrorMessage>bad</ErrorMessage></Head><Body><E>x</E></Body></ErrorResponse>"
      (.elem "ErrorResponse" [] ""
        [.elem "Head" [] ""
          [.elem "ErrorCode" [] "10" [] "", .elem "ErrorMessage" [] "bad" [] ""] "",
         .elem "Body" [] "" [.elem "E" [] "x" [] ""] ""] "")
      (.elem "Head" [] ""
        [.elem "ErrorCode" [] "10" [] "", .elem "ErrorMessage" [] "bad" [] ""] "")
      (.elem "ErrorMessage" [] "bad" [] "")
      (.elem "ErrorCode" [] "10" [] "") "bad").2.2
      (.elem "Body" [] "" [.elem "E" [] "x" [] ""] "") rfl rfl rfl rfl rfl rfl rfl⟩

theorem get_random_proxy_spec_witness :
    getRandomProxy [] (fun n => n) 3 = some none ∧
    ("p1" ∈ ["", "p1"] ∧ "p1" ≠ "") ∧
    (∃ f q, getRandomProxy ["x"] (fun _ => 0) f = some (some q)) ∧
    getRandomProxy [""] (fun n => n) 5 = none :=
  ⟨(get_random_proxy_spec [] (fun n => n) 3 0 "").1 rfl,
   (get_random_proxy_spec ["", "p1"] (fun n => n) 2 0 "p1").2.1 rfl,
   (get_random_proxy_spec ["x"] (fun _ => 0) 1 0 "x").2.2.1 (by decide) (by decide),
   (get_random_proxy_spec [""] (fun n => n) 5 0 "").2.2.2 (by decide) (by decide)⟩

end Lazada

namespace Lazada

theorem nameChar_not_space (c : Char) (h : isNameChar c = true) : isXmlSpace c = false := by
  by_contra hc
  have hsp : isXmlSpace c = true := by revert hc; cases isXmlSpace c <;> simp
  have hor : ((c = ' ' ∨ c = '\t') ∨ c = '\n') ∨ c = '\r' := by
    simpa [isXmlSpace, or_assoc] using hsp
  rcases hor with ((rfl | rfl) | rfl) | rfl <;> simp [isNameChar] at h

theorem skipSpaces_not (c : Char) (r : List Char) (h : isXmlSpace c = false) :
    skipSpaces (c :: r) = c :: r := by
  simp [skipSpaces, h]

theorem skipSpaces_space (l : List Char) : skipSpaces (' ' :: l) = skipSpaces l := by
  simp [skipSpaces, isXmlSpace]

theorem scanName_emit (nm rest : List Char) (h : ∀ c ∈ nm, isNameChar c = true)
    (hr : headNotName rest = true) :
    scanName (nm ++ rest) = (nm, rest) := by
  induction nm with
  | nil =>
      cases rest with
      | nil => rfl
      | cons c t => simp_all [scanName, headNotName]
  | cons c t ih => simp_all [scanName]
theorem scanTextF_emit (tx : List Char) (rest : List Char) (f : Nat)
    (hcr : ¬ '\r' ∈ tx) (hrest : headLt rest = true)
    (hf : (tx.flatMap escCdataChar).length + 1 ≤ f) :
    scanTextF f (tx.flatMap escCdataChar ++ rest) = some (tx, rest) := by
  induction tx generalizing f with
  | nil =>
      obtain ⟨f', rfl⟩ : ∃ f', f = f' + 1 := ⟨f - 1, by omega⟩
      cases rest with
      | nil => simp [scanTextF]
      | cons c r =>
          have hc : c = '<' := by simpa [headLt] using hrest
          subst hc
          simp [scanTextF]
  | cons c t ih =>
      rw [List.flatMap_cons, List.length_append] at hf
      obtain ⟨f', rfl⟩ : ∃ f', f = f' + 1 := ⟨f - 1, by omega⟩
      have hcr' : ¬ '\r' ∈ t := fun hm => hcr (List.mem_cons_of_mem c hm)
      have hc : c ≠ '\r' := fun hq => hcr (hq ▸ List.mem_cons_self c t)
      rw [List.flatMap_cons, List.append_assoc]
      by_cases h1 : c = '&'
      · subst h1
        rw [show escCdataChar '&' = ['&', 'a', 'm', 'p', ';'] from rfl] at hf ⊢
        rw [show (['&', 'a', 'm', 'p', ';'] : List Char) ++
            (t.flatMap escCdataChar ++ rest) =
            '&' :: 'a' :: 'm' :: 'p' :: ';' :: (t.flatMap escCdataChar ++ rest)
          from rfl]
        rw [show scanTextF (f' + 1)
            ('&' :: 'a' :: 'm' :: 'p' :: ';' :: (t.flatMap escCdataChar ++ rest)) =
            (scanTextF f' (t.flatMap escCdataChar ++ rest)).map
              (fun p => ('&' :: p.1, p.2)) from by
          simp [scanTextF, entStep]]
        rw [ih f' hcr' (by simp at hf ⊢; omega)]
        rfl
      · by_cases h2 : c = '<'
        · subst h2
          rw [show escCdataChar '<' = ['&', 'l', 't', ';'] from rfl] at hf ⊢
          rw [show (['&', 'l', 't', ';'] : List Char) ++
              (t.flatMap escCdataChar ++ rest) =
              '&' :: 'l' :: 't' :: ';' :: (t.flatMap escCdataChar ++ rest) from rfl]
          rw [show scanTextF (f' + 1)
              ('&' :: 'l' :: 't' :: ';' :: (t.flatMap escCdataChar ++ rest)) =
              (scanTextF f' (t.flatMap escCdataChar ++ rest)).map
                (fun p => ('<' :: p.1, p.2)) from by
            simp [scanTextF, entStep]]
          rw [ih f' hcr' (by simp at hf ⊢; omega)]
          rfl
        · by_cases h3 : c = '>'
          · subst h3
            rw [show escCdataChar '>' = ['&', 'g', 't', ';'] from rfl] at hf ⊢
            rw [show (['&', 'g', 't', ';'] : List Char) ++
                (t.flatMap escCdataChar ++ rest) =
                '&' :: 'g' :: 't' :: ';' :: (t.flatMap escCdataChar ++ rest) from rfl]
            rw [show scanTextF (f' + 1)
                ('&' :: 'g' :: 't' :: ';' :: (t.flatMap escCdataChar ++ rest)) =
                (scanTextF f' (t.flatMap escCdataChar ++ rest)).map
                  (fun p => ('>' :: p.1, p.2)) from by
              simp [scanTextF, entStep]]
            rw [ih f' hcr' (by simp at hf ⊢; omega)]
            rfl
          · rw [show escCdataChar c = [c] from by
              simp [escCdataChar, h1, h2, h3]] at hf ⊢
            rw [List.singleton_append]
            rw [show scanTextF (f' + 1) (c :: (t.flatMap escCdataChar ++ rest)) =
                (scanTextF f' (t.flatMap escCdataChar ++ rest)).map
                  (fun p => (c :: p.1, p.2)) from by
              simp [scanTextF, h1, h2, hc]]
            rw [ih f' hcr' (by simp at hf ⊢; omega)]
            rfl

theorem scanAttrValF_emit (v rest : List Char) (f : Nat)
    (hf : (v.flatMap escAttrChar).length + 2 ≤ f) :
    scanAttrValF '"' f (v.flatMap escAttrChar ++ '"' :: rest) = some (v, rest) := by
  induction v generalizing f with
  | nil =>
      obtain ⟨f', rfl⟩ : ∃ f', f = f' + 1 := ⟨f - 1, by omega⟩
      simp [scanAttrValF]
  | cons c t ih =>
      rw [List.flatMap_cons, List.length_append] at hf
      obtain ⟨f', rfl⟩ : ∃ f', f = f' + 1 := ⟨f - 1, by omega⟩
      rw [List.flatMap_cons, List.append_assoc]
      by_cases h1 : c = '&'
      · subst h1
        rw [show escAttrChar '&' = ['&', 'a', 'm', 'p', ';'] from rfl] at hf ⊢
        rw [show (['&', 'a', 'm', 'p', ';'] : List Char) ++
            (t.flatMap escAttrChar ++ '"' :: rest) =
            '&' :: 'a' :: 'm' :: 'p' :: ';' :: (t.flatMap escAttrChar ++ '"' :: rest)
          from rfl]
        rw [show scanAttrValF '"' (f' + 1)
            ('&' :: 'a' :: 'm' :: 'p' :: ';' :: (t.flatMap escAttrChar ++ '"' :: rest)) =
            (scanAttrValF '"' f' (t.flatMap escAttrChar ++ '"' :: rest)).map
              (fun p => ('&' :: p.1, p.2)) from by
          simp [scanAttrValF, entStep]]
        rw [ih f' (by simp at hf ⊢; omega)]
        rfl
      · by_cases h2 : c = '<'
        · subst h2
          rw [show escAttrChar '<' = ['&', 'l', 't', ';'] from rfl] at hf ⊢
          rw [show (['&', 'l', 't', ';'] : List Char) ++
              (t.flatMap escAttrChar ++ '"' :: rest) =
              '&' :: 'l' :: 't' :: ';' :: (t.flatMap escAttrChar ++ '"' :: rest) from rfl]
          rw [show scanAttrValF '"' (f' + 1)
              ('&' :: 'l' :: 't' :: ';' :: (t.flatMap escAttrChar ++ '"' :: rest)) =
              (scanAttrValF '"' f' (t.flatMap escAttrChar ++ '"' :: rest)).map
                (fun p => ('<' :: p.1, p.2)) from by
            simp [scanAttrValF, entStep]]
          rw [ih f' (by simp at hf ⊢; omega)]
          rfl
        · by_cases h3 : c = '>'
          · subst h3
            rw [show escAttrChar '>' = ['&', 'g', 't', ';'] from rfl] at hf ⊢
            rw [show (['&', 'g', 't', ';'] : List Char) ++
                (t.flatMap escAttrChar ++ '"' :: rest) =
                '&' :: 'g' :: 't' :: ';' :: (t.flatMap escAttrChar ++ '"' :: rest) from rfl]
            rw [show scanAttrValF '"' (f' + 1)
                ('&' :: 'g' :: 't' :: ';' :: (t.flatMap escAttrChar ++ '"' :: rest)) =
                (scanAttrValF '"' f' (t.flatMap escAttrChar ++ '"' :: rest)).map
                  (fun p => ('>' :: p.1, p.2)) from by
              simp [scanAttrValF, entStep]]
            rw [ih f' (by simp at hf ⊢; omega)]
            rfl
          · by_cases h4 : c = '"'
            · subst h4
              rw [show escAttrChar '"' = ['&', 'q', 'u', 'o', 't', ';'] from rfl] at hf ⊢
              rw [show (['&', 'q', 'u', 'o', 't', ';'] : List Char) ++
                  (t.flatMap escAttrChar ++ '"' :: rest) =
                  '&' :: 'q' :: 'u' :: 'o' :: 't' :: ';' ::
                    (t.flatMap escAttrChar ++ '"' :: rest) from rfl]
              rw [show scanAttrValF '"' (f' + 1)
                  ('&' :: 'q' :: 'u' :: 'o' :: 't' :: ';' ::
                    (t.flatMap escAttrChar ++ '"' :: rest)) =
                  (scanAttrValF '"' f' (t.flatMap escAttrChar ++ '"' :: rest)).map
                    (fun p => ('"' :: p.1, p.2)) from by
                simp [scanAttrValF, entStep]]
              rw [ih f' (by simp at hf ⊢; omega)]
              rfl
            · by_cases h5 : c = '\r'
              · subst h5
                rw [show escAttrChar '\r' = ['&', '#', '1', '3', ';'] from rfl] at hf ⊢
                rw [show (['&', '#', '1', '3', ';'] : List Char) ++
                    (t.flatMap escAttrChar ++ '"' :: rest) =
                    '&' :: '#' :: '1' :: '3' :: ';' ::
                      (t.flatMap escAttrChar ++ '"' :: rest) from rfl]
                rw [show scanAttrValF '"' (f' + 1)
                    ('&' :: '#' :: '1' :: '3' :: ';' ::
                      (t.flatMap escAttrChar ++ '"' :: rest)) =
                    (scanAttrValF '"' f' (t.flatMap escAttrChar ++ '"' :: rest)).map
                      (fun p => ('\r' :: p.1, p.2)) from by
                  simp [scanAttrValF, entStep]]
                rw [ih f' (by simp at hf ⊢; omega)]
                rfl
              · by_cases h6 : c = '\n'
                · subst h6
                  rw [show escAttrChar '\n' = ['&', '#', '1', '0', ';'] from rfl] at hf ⊢
                  rw [show (['&', '#', '1', '0', ';'] : List Char) ++
                      (t.flatMap escAttrChar ++ '"' :: rest) =
                      '&' :: '#' :: '1' :: '0' :: ';' ::
                        (t.flatMap escAttrChar ++ '"' :: rest) from rfl]
                  rw [show scanAttrValF '"' (f' + 1)
                      ('&' :: '#' :: '1' :: '0' :: ';' ::
                        (t.flatMap escAttrChar ++ '"' :: rest)) =
                      (scanAttrValF '"' f' (t.flatMap escAttrChar ++ '"' :: rest)).map
                        (fun p => ('\n' :: p.1, p.2)) from by
                    simp [scanAttrValF, entStep]]
                  rw [ih f' (by simp at hf ⊢; omega)]
                  rfl
                · by_cases h7 : c = '\t'
                  · subst h7
                    rw [show escAttrChar '\t' = ['&', '#', '0', '9', ';'] from rfl] at hf ⊢
                    rw [show (['&', '#', '0', '9', ';'] : List Char) ++
                        (t.flatMap escAttrChar ++ '"' :: rest) =
                        '&' :: '#' :: '0' :: '9' :: ';' ::
                          (t.flatMap escAttrChar ++ '"' :: rest) from rfl]
                    rw [show scanAttrValF '"' (f' + 1)
                        ('&' :: '#' :: '0' :: '9' :: ';' ::
                          (t.flatMap escAttrChar ++ '"' :: rest)) =
                        (scanAttrValF '"' f' (t.flatMap escAttrChar ++ '"' :: rest)).map
                          (fun p => ('\t' :: p.1, p.2)) from by
                      simp [scanAttrValF, entStep]]
                    rw [ih f' (by simp at hf ⊢; omega)]
                    rfl
                  · rw [show escAttrChar c = [c] from by
                      simp [escAttrChar, h1, h2, h3, h4, h5, h6, h7]] at hf ⊢
                    rw [List.singleton_append]
                    rw [show scanAttrValF '"' (f' + 1)
                        (c :: (t.flatMap escAttrChar ++ '"' :: rest)) =
                        (scanAttrValF '"' f' (t.flatMap escAttrChar ++ '"' :: rest)).map
                          (fun p => (c :: p.1, p.2)) from by
                      simp [scanAttrValF, h1, h2, h4, h5, h6, h7]]
                    rw [ih f' (by simp at hf ⊢; omega)]
                    rfl

theorem parseAttrs_cons_step (a : String × String) (f : Nat) (X : List Char)
    (hv : validName a.1 = true) :
    parseAttrs (f + 1) (' ' :: (a.1.data ++ '=' :: '"' :: (escAttr a.2 ++ '"' :: X))) =
      match parseAttrs f X with
      | some (attrs, sc, rest) => some (a :: attrs, sc, rest)
      | none => none := by
  obtain ⟨c0, k1, hkd⟩ : ∃ c0 k1, a.1.data = c0 :: k1 := by
    cases hae : a.1.data with
    | nil => rw [validName, hae] at hv; simp at hv
    | cons x xs => exact ⟨x, xs, rfl⟩
  have hall : ∀ c ∈ a.1.data, isNameChar c = true := by
    intro c hm
    rw [validName] at hv
    simp only [Bool.and_eq_true, List.all_eq_true] at hv
    exact hv.2 c hm
  have hc0 : isNameChar c0 = true := hall c0 (by rw [hkd]; exact List.mem_cons_self _ _)
  rw [show parseAttrs (f + 1) = parseAttrsCore (parseAttrs f) from rfl]
  unfold parseAttrsCore
  rw [skipSpaces_space, hkd, List.cons_append]
  rw [skipSpaces_not c0 _ (nameChar_not_space c0 hc0)]
  split
  · rename_i r heq
    rw [List.cons.injEq] at heq
    rw [heq.1] at hc0
    simp [isNameChar] at hc0
  · rename_i r heq
    rw [List.cons.injEq] at heq
    rw [heq.1] at hc0
    simp [isNameChar] at hc0
  · rw [show c0 :: (k1 ++ '=' :: '"' :: (escAttr a.2 ++ '"' :: X)) =
        (c0 :: k1) ++ ('=' :: '"' :: (escAttr a.2 ++ '"' :: X)) from rfl, ← hkd]
    rw [scanName_emit a.1.data _ hall (by simp [headNotName, isNameChar])]
    rw [hkd]
    simp only [parseAttrsStep]
    rw [show parseOneAttrVal ('=' :: '"' :: (escAttr a.2 ++ '"' :: X)) =
        scanAttrValF '"' ((escAttr a.2 ++ '"' :: X).length + 1)
          (escAttr a.2 ++ '"' :: X) from by
      simp [parseOneAttrVal]]
    rw [show escAttr a.2 ++ '"' :: X = a.2.data.flatMap escAttrChar ++ '"' :: X from rfl]
    rw [scanAttrValF_emit a.2.data X _ (by
      rw [List.length_append, List.length_cons]; omega)]
    simp only [parseAttrsFinish]
    rw [← hkd]

theorem parseAttrs_emit (attrs : List (String × String)) (f : Nat)
    (hn : ∀ p ∈ attrs, validName p.1 = true) (hf : attrs.length + 1 ≤ f) :
    (∀ rest, parseAttrs f (serAttrs attrs ++ '>' :: rest) = some (attrs, false, rest)) ∧
    (∀ rest, parseAttrs f (serAttrs attrs ++ ' ' :: '/' :: '>' :: rest) =
      some (attrs, true, rest)) := by
  induction attrs generalizing f with
  | nil =>
      obtain ⟨f', rfl⟩ : ∃ f', f = f' + 1 := ⟨f - 1, by omega⟩
      constructor <;> intro rest
      · rw [show serAttrs [] = [] from rfl, List.nil_append]
        rw [show parseAttrs (f' + 1) = parseAttrsCore (parseAttrs f') from rfl]
        unfold parseAttrsCore
        rw [skipSpaces_not '>' _ (by decide)]
        rfl
      · rw [show serAttrs [] = [] from rfl, List.nil_append]
        rw [show parseAttrs (f' + 1) = parseAttrsCore (parseAttrs f') from rfl]
        unfold parseAttrsCore
        rw [skipSpaces_space, skipSpaces_not '/' _ (by decide)]
        rfl
  | cons a t ih =>
      obtain ⟨f', rfl⟩ : ∃ f', f = f' + 1 := ⟨f - 1, by omega⟩
      have hrec := ih (fun p hp => hn p (List.mem_cons_of_mem a hp)) (f := f')
        (by simp at hf; omega)
      constructor <;> intro rest
      · rw [show serAttrs (a :: t) ++ '>' :: rest =
            ' ' :: (a.1.data ++ '=' :: '"' ::
              (escAttr a.2 ++ '"' :: (serAttrs t ++ '>' :: rest))) from by
          simp [serAttrs]]
        rw [parseAttrs_cons_step a f' _ (hn a (List.mem_cons_self a t))]
        rw [hrec.1 rest]
      · rw [show serAttrs (a :: t) ++ ' ' :: '/' :: '>' :: rest =
            ' ' :: (a.1.data ++ '=' :: '"' ::
              (escAttr a.2 ++ '"' :: (serAttrs t ++ ' ' :: '/' :: '>' :: rest))) from by
          simp [serAttrs]]
        rw [parseAttrs_cons_step a f' _ (hn a (List.mem_cons_self a t))]
        rw [hrec.2 rest]

theorem serListChars_nil : serListChars [] = [] := rfl

theorem serListChars_cons (x : Xml) (xs : List Xml) :
    serListChars (x :: xs) = serElemChars x ++ serListChars xs := rfl

theorem serElemChars_def (tag : String) (attrs : List (String × String)) (tx : String)
    (ch : List Xml) (tl : String) :
    serElemChars (.elem tag attrs tx ch tl) =
      '<' :: (tag.data ++ serAttrs attrs ++
        (if isShortElem tx ch then
          ' ' :: '/' :: '>' :: escCdata tl
        else
          '>' :: (escCdata tx ++ serListChars ch ++
            ('<' :: '/' :: (tag.data ++ ('>' :: escCdata tl)))))) := rfl

theorem wfX_elem (tag : String) (attrs : List (String × String)) (tx : String)
    (ch : List Xml) (tl : String) :
    wfX (.elem tag attrs tx ch tl) =
      (validName tag && attrs.all (fun p => validName p.1) && wfL ch) := rfl

theorem wfL_cons (x : Xml) (xs : List Xml) : wfL (x :: xs) = (wfX x && wfL xs) := rfl

theorem noCRX_elem (tag : String) (attrs : List (String × String)) (tx : String)
    (ch : List Xml) (tl : String) :
    noCRX (.elem tag attrs tx ch tl) =
      (!tx.data.contains '\r' && !tl.data.contains '\r' && noCRL ch) := rfl

theorem noCRL_cons (x : Xml) (xs : List Xml) :
    noCRL (x :: xs) = (noCRX x && noCRL xs) := rfl

theorem sizeX_elem (tag : String) (attrs : List (String × String)) (tx : String)
    (ch : List Xml) (tl : String) :
    sizeX (.elem tag attrs tx ch tl) = sizeL ch + 2 := rfl

theorem sizeL_cons (x : Xml) (xs : List Xml) : sizeL (x :: xs) = sizeX x + sizeL xs := rfl

theorem headLt_serList (ch : List Xml) (X : List Char) :
    headLt (serListChars ch ++ '<' :: X) = true := by
  cases ch with
  | nil => rfl
  | cons x xs =>
      rw [serListChars_cons]
      cases x with
      | elem tag attrs tx c tl =>
          rw [serElemChars_def]
          simp [headLt]

theorem headNotName_serAttrs (attrs : List (String × String)) (d : Char)
    (hd : isNameChar d = false) (X : List Char) :
    headNotName (serAttrs attrs ++ d :: X) = true := by
  cases attrs with
  | nil => simp [serAttrs, headNotName, hd]
  | cons a t => simp [serAttrs, headNotName, isNameChar]

theorem serAttrs_length (attrs : List (String × String)) :
    attrs.length ≤ (serAttrs attrs).length := by
  induction attrs with
  | nil => simp [serAttrs]
  | cons a t ih =>
      simp only [serAttrs, List.flatMap_cons, List.length_append, List.length_cons] at ih ⊢
      omega

theorem not_mem_of_contains_false (l : List Char) (c : Char)
    (h : l.contains c = false) : ¬ c ∈ l := by
  simpa using h

theorem parse_emit (f : Nat) :
    (∀ t rest, wfX t = true → noCRX t = true → sizeX t ≤ f → headLt rest = true →
       parseElem f (serElemChars t ++ rest) = some (t, rest)) ∧
    (∀ ch rest, wfL ch = true → noCRL ch = true → sizeL ch + 1 ≤ f →
       parseContent f (serListChars ch ++ '<' :: '/' :: rest) =
         some (ch, '<' :: '/' :: rest)) := by
  induction f with
  | zero =>
      constructor
      · intro t rest _ _ hs _
        cases t with
        | elem tag attrs tx ch tl => rw [sizeX_elem] at hs; omega
      · intro ch rest _ _ hs
        omega
  | succ f ih =>
      constructor
      · intro t rest hwf hcr hs hrest
        cases t with
        | elem tag attrs tx ch tl =>
            rw [wfX_elem] at hwf
            simp only [Bool.and_eq_true] at hwf
            obtain ⟨⟨htag, hattrs⟩, hch⟩ := hwf
            rw [noCRX_elem] at hcr
            simp only [Bool.and_eq_true, Bool.not_eq_true'] at hcr
            obtain ⟨⟨htxcr, htlcr⟩, hchcr⟩ := hcr
            rw [sizeX_elem] at hs
            obtain ⟨c0, k1, hkd⟩ : ∃ c0 k1, tag.data = c0 :: k1 := by
              cases hae : tag.data with
              | nil => rw [validName, hae] at htag; simp at htag
              | cons x xs => exact ⟨x, xs, rfl⟩
            have hall : ∀ c ∈ tag.data, isNameChar c = true := by
              intro c hm
              rw [validName] at htag
              simp only [Bool.and_eq_true, List.all_eq_true] at htag
              exact htag.2 c hm
            have hattrs' : ∀ p ∈ attrs, validName p.1 = true := by
              intro p hp
              rw [List.all_eq_true] at hattrs
              exact hattrs p hp
            rw [show parseElem (f + 1) = parseElemCore (parseContent f) from rfl]
            by_cases hshort : isShortElem tx ch = true
            · have hdecomp : tx = "" ∧ ch = [] := by
                rw [isShortElem, Bool.and_eq_true] at hshort
                constructor
                · exact decide_eq_true_eq.mp hshort.1
                · simpa using hshort.2
              obtain ⟨htx0, hch0⟩ := hdecomp
              subst htx0
              subst hch0
              rw [serElemChars_def, if_pos hshort]
              rw [show ('<' :: (tag.data ++ serAttrs attrs ++
                  (' ' :: '/' :: '>' :: escCdata tl))) ++ rest =
                  '<' :: (tag.data ++ (serAttrs attrs ++
                    (' ' :: '/' :: '>' :: (escCdata tl ++ rest)))) from by simp]
              simp only [parseElemCore]
              rw [scanName_emit tag.data _ hall
                (headNotName_serAttrs attrs ' ' (by decide) _)]
              split
              · rename_i heq
                rw [Prod.mk.injEq] at heq
                rw [heq.1] at hkd
                simp at hkd
              · rename_i nm cs2 heq
                rw [Prod.mk.injEq] at heq
                obtain ⟨hnm, hcs2⟩ := heq
                subst hnm
                subst hcs2
                have hfuel : attrs.length + 1 ≤
                    (serAttrs attrs ++ ' ' :: '/' :: '>' :: (escCdata tl ++ rest)).length + 1 := by
                  rw [List.length_append]
                  have := serAttrs_length attrs
                  omega
                rw [(parseAttrs_emit attrs _ hattrs' hfuel).2 (escCdata tl ++ rest)]
                simp only [parseElemWithAttrs]
                rw [show escCdata tl = tl.data.flatMap escCdataChar from rfl]
                rw [scanTextF_emit tl.data rest _
                  (not_mem_of_contains_false _ _ htlcr) hrest
                  (by rw [List.length_append]; omega)]
                simp only [parseElemFinish]
            · rw [serElemChars_def, if_neg hshort]
              rw [show ('<' :: (tag.data ++ serAttrs attrs ++
                  ('>' :: (escCdata tx ++ serListChars ch ++
                    ('<' :: '/' :: (tag.data ++ ('>' :: escCdata tl))))))) ++ rest =
                  '<' :: (tag.data ++ (serAttrs attrs ++
                    ('>' :: (escCdata tx ++ (serListChars ch ++
                      ('<' :: '/' :: (tag.data ++ ('>' :: (escCdata tl ++ rest))))))))) from by
                simp]
              simp only [parseElemCore]
              rw [scanName_emit tag.data _ hall
                (headNotName_serAttrs attrs '>' (by decide) _)]
              split
              · rename_i heq
                rw [Prod.mk.injEq] at heq
                rw [heq.1] at hkd
                simp at hkd
              · rename_i nm cs2 heq
                rw [Prod.mk.injEq] at heq
                obtain ⟨hnm, hcs2⟩ := heq
                subst hnm
                subst hcs2
                have hfuel : attrs.length + 1 ≤
                    (serAttrs attrs ++ ('>' :: (escCdata tx ++ (serListChars ch ++
                      ('<' :: '/' :: (tag.data ++ ('>' :: (escCdata tl ++ rest)))))))).length + 1 := by
                  rw [List.length_append]
                  have := serAttrs_length attrs
                  omega
                rw [(parseAttrs_emit attrs _ hattrs' hfuel).1 _]
                simp only [parseElemWithAttrs]
                rw [show escCdata tx = tx.data.flatMap escCdataChar from rfl]
                rw [scanTextF_emit tx.data _ _
                  (not_mem_of_contains_false _ _ htxcr)
                  (headLt_serList ch _)
                  (by rw [List.length_append]; omega)]
                simp only [parseElemTextCont]
                rw [ih.2 ch (tag.data ++ ('>' :: (escCdata tl ++ rest))) hch hchcr
                  (by omega)]
                simp only [parseElemLong, parseCloseTag]
                rw [scanName_emit tag.data _ hall (by simp [headNotName, isNameChar])]
                split
                · rw [show ((tag.data, '>' :: (escCdata tl ++ rest)) :
                      List Char × List Char).2 = '>' :: (escCdata tl ++ rest) from rfl]
                  rw [skipSpaces_not '>' _ (by decide)]
                  split
                  · rename_i cs8 heq2
                    rw [List.cons.injEq] at heq2
                    obtain ⟨-, hcs8⟩ := heq2
                    subst hcs8
                    rw [show escCdata tl = tl.data.flatMap escCdataChar from rfl]
                    rw [scanTextF_emit tl.data rest _
                      (not_mem_of_contains_false _ _ htlcr) hrest
                      (by rw [List.length_append]; omega)]
                    simp only [parseElemFinish]
                  · rename_i hne
                    exact absurd rfl (hne (escCdata tl ++ rest))
                · rename_i hne
                  exact absurd rfl hne
      · intro ch rest hwf hcr hs
        cases ch with
        | nil => rfl
        | cons x xs =>
            rw [wfL_cons, Bool.and_eq_true] at hwf
            obtain ⟨hwx, hwxs⟩ := hwf
            rw [noCRL_cons, Bool.and_eq_true] at hcr
            obtain ⟨hcx, hcxs⟩ := hcr
            rw [sizeL_cons] at hs
            rw [serListChars_cons, List.append_assoc]
            cases x with
            | elem tag attrs tx c tl =>
                have hsx : 2 ≤ sizeX (Xml.elem tag attrs tx c tl) := by
                  rw [sizeX_elem]; omega
                obtain ⟨c0, k1, hkd⟩ : ∃ c0 k1, tag.data = c0 :: k1 := by
                  rw [wfX_elem] at hwx
                  simp only [Bool.and_eq_true] at hwx
                  cases hae : tag.data with
                  | nil =>
                      have := hwx.1.1
                      rw [validName, hae] at this
                      simp at this
                  | cons y ys => exact ⟨y, ys, rfl⟩
                have hc0 : isNameChar c0 = true := by
                  rw [wfX_elem] at hwx
                  simp only [Bool.and_eq_true] at hwx
                  have := hwx.1.1
                  rw [validName] at this
                  simp only [Bool.and_eq_true, List.all_eq_true] at this
                  exact this.2 c0 (by rw [hkd]; exact List.mem_cons_self _ _)
                have hform : serElemChars (Xml.elem tag attrs tx c tl) ++
                    (serListChars xs ++ '<' :: '/' :: rest) =
                    '<' :: c0 :: (k1 ++ (serAttrs attrs ++
                      (if isShortElem tx c then
                        ' ' :: '/' :: '>' :: escCdata tl
                      else
                        '>' :: (escCdata tx ++ serListChars c ++
                          ('<' :: '/' :: (tag.data ++ ('>' :: escCdata tl))))) ++
                      (serListChars xs ++ '<' :: '/' :: rest))) := by
                  rw [serElemChars_def, hkd]
                  simp
                rw [hform]
                simp only [parseContent]
                split
                · rename_i r heq
                  rw [List.cons.injEq, List.cons.injEq] at heq
                  have : c0 = '/' := heq.2.1
                  rw [this] at hc0
                  simp [isNameChar] at hc0
                · rename_i r heq
                  rw [List.cons.injEq] at heq
                  obtain ⟨-, hr⟩ := heq
                  rw [← hr]
                  rw [← hform]
                  rw [ih.1 (Xml.elem tag attrs tx c tl)
                    (serListChars xs ++ '<' :: '/' :: rest) hwx hcx (by omega)
                    (headLt_serList xs ('/' :: rest))]
                  simp only [parseContentCons]
                  rw [ih.2 xs rest hwxs hcxs (by omega)]
                · rename_i hne1 hne2
                  exact absurd rfl (hne2 (c0 :: (k1 ++ _)))

theorem scanName_chars (cs : List Char) : ∀ c ∈ (scanName cs).1, isNameChar c = true := by
  induction cs with
  | nil => simp [scanName]
  | cons c t ih =>
      by_cases h : isNameChar c
      · intro d hd
        simp only [scanName, if_pos h] at hd
        rcases List.mem_cons.mp hd with rfl | hmem
        · exact h
        · exact ih d hmem
      · intro d hd
        simp only [scanName, if_neg h] at hd
        simp at hd

theorem parseAttrs_wf (g : Nat) : ∀ cs attrs sc rest,
    parseAttrs g cs = some (attrs, sc, rest) → ∀ p ∈ attrs, validName p.1 = true := by
  induction g with
  | zero =>
      intro cs attrs sc rest h
      simp [parseAttrs] at h
  | succ g ih =>
      intro cs attrs sc rest h
      rw [show parseAttrs (g + 1) cs = parseAttrsCore (parseAttrs g) cs from rfl] at h
      unfold parseAttrsCore at h
      split at h
      · rw [Option.some_inj] at h
        cases h
        simp
      · rw [Option.some_inj] at h
        cases h
        simp
      · cases hsn : scanName _ with
        | mk nm cs2 =>
            rw [hsn] at h
            cases nm with
            | nil => simp [parseAttrsStep] at h
            | cons c k =>
                simp only [parseAttrsStep] at h
                cases hov : parseOneAttrVal cs2 with
                | none => rw [hov] at h; simp [parseAttrsFinish] at h
                | some p =>
                    rw [hov] at h
                    obtain ⟨v, cs4⟩ := p
                    simp only [parseAttrsFinish] at h
                    cases hpa : parseAttrs g cs4 with
                    | none => rw [hpa] at h; simp at h
                    | some q =>
                        rw [hpa] at h
                        obtain ⟨attrs', sc', rest'⟩ := q
                        rw [Option.some_inj] at h
                        cases h
                        intro p hp
                        rcases List.mem_cons.mp hp with rfl | hmem
                        · have hnmchars : ∀ d ∈ c :: k, isNameChar d = true := by
                            have hsc := scanName_chars (skipSpaces cs)
                            rw [hsn] at hsc
                            exact hsc
                          rw [validName]
                          simp only [Bool.and_eq_true, List.all_eq_true]
                          exact ⟨by simp, hnmchars⟩
                        · exact ih cs4 attrs' sc rest hpa p hmem

theorem parseElemFinish_inv {nm : List Char} {attrs : List (String × String)}
    {tx : List Char} {ch : List Xml} {tres : Option (List Char × List Char)}
    {t : Xml} {rest : List Char}
    (h : parseElemFinish nm attrs tx ch tres = some (t, rest)) :
    ∃ tl cs9, tres = some (tl, cs9) ∧ t = .elem ⟨nm⟩ attrs ⟨tx⟩ ch ⟨tl⟩ ∧ rest = cs9 := by
  cases tres with
  | none => simp [parseElemFinish] at h
  | some p =>
      obtain ⟨tl, cs9⟩ := p
      simp only [parseElemFinish, Option.some_inj] at h
      cases h
      exact ⟨tl, _, rfl, rfl, rfl⟩

theorem parse_wf (f : Nat) :
    (∀ cs t rest, parseElem f cs = some (t, rest) → wfX t = true) ∧
    (∀ cs ch rest, parseContent f cs = some (ch, rest) → wfL ch = true) := by
  induction f with
  | zero =>
      constructor
      · intro cs t rest h
        simp [parseElem] at h
      · intro cs ch rest h
        simp [parseContent] at h
  | succ f ih =>
      constructor
      · intro cs t rest h
        rw [show parseElem (f + 1) cs = parseElemCore (parseContent f) cs from rfl] at h
        unfold parseElemCore at h
        split at h
        · rename_i cs1
          cases hsn : scanName cs1 with
          | mk nm cs2 =>
              rw [hsn] at h
              cases nm with
              | nil => simp at h
              | cons c k =>
                  have hnm : validName (⟨c :: k⟩ : String) = true := by
                    rw [validName]
                    simp only [Bool.and_eq_true, List.all_eq_true]
                    refine ⟨by simp, ?_⟩
                    have hsc := scanName_chars cs1
                    rw [hsn] at hsc
                    exact hsc
                  rw [show (match ((c :: k : List Char), cs2) with
                      | ([], _) => (none : Option (Xml × List Char))
                      | (nm, cs2) => parseElemWithAttrs (parseContent f) nm
                          (parseAttrs (cs2.length + 1) cs2)) =
                      parseElemWithAttrs (parseContent f) (c :: k)
                        (parseAttrs (cs2.length + 1) cs2) from rfl] at h
                  cases hpa : parseAttrs (cs2.length + 1) cs2 with
                  | none => rw [hpa] at h; simp [parseElemWithAttrs] at h
                  | some q =>
                      rw [hpa] at h
                      obtain ⟨attrs, sc, cs3⟩ := q
                      have hattrs : attrs.all (fun p => validName p.1) = true := by
                        rw [List.all_eq_true]
                        exact parseAttrs_wf _ _ _ _ _ hpa
                      cases sc with
                      | true =>
                          simp only [parseElemWithAttrs] at h
                          obtain ⟨tl, cs9, -, ht, -⟩ := parseElemFinish_inv h
                          subst ht
                          rw [wfX_elem]
                          simp [hnm, hattrs, wfL]
                      | false =>
                          simp only [parseElemWithAttrs] at h
                          cases hst : scanTextF (cs3.length + 1) cs3 with
                          | none => rw [hst] at h; simp [parseElemTextCont] at h
                          | some p =>
                              rw [hst] at h
                              obtain ⟨tx, cs4⟩ := p
                              simp only [parseElemTextCont] at h
                              cases hpc : parseContent f cs4 with
                              | none => rw [hpc] at h; simp [parseElemLong] at h
                              | some q =>
                                  rw [hpc] at h
                                  obtain ⟨ch, cs5⟩ := q
                                  simp only [parseElemLong] at h
                                  unfold parseCloseTag at h
                                  split at h
                                  · rename_i cs6
                                    cases hsn2 : scanName cs6 with
                                    | mk nm2 cs7 =>
                                        rw [hsn2] at h
                                        split at h
                                        split at h
                                        · split at h
                                          · obtain ⟨tl, cs9, -, ht, -⟩ :=
                                              parseElemFinish_inv h
                                            subst ht
                                            rw [wfX_elem]
                                            simp only [Bool.and_eq_true]
                                            exact ⟨⟨hnm, hattrs⟩, (ih.2 cs4 ch _ hpc)⟩
                                          · simp at h
                                        · simp at h
                                  · simp at h
        · simp at h
      · intro cs ch rest h
        rw [parseContent.eq_def] at h
        simp only [] at h
        split at h
        · rw [Option.some_inj] at h
          cases h
          rfl
        · rename_i r heq
          cases hpe : parseElem f ('<' :: r) with
          | none => rw [hpe] at h; simp [parseContentCons] at h
          | some p =>
              rw [hpe] at h
              obtain ⟨x, cs2⟩ := p
              simp only [parseContentCons] at h
              cases hpc : parseContent f cs2 with
              | none => rw [hpc] at h; simp at h
              | some q =>
                  rw [hpc] at h
                  obtain ⟨xs, cs3⟩ := q
                  rw [Option.some_inj] at h
                  cases h
                  rw [wfL_cons, Bool.and_eq_true]
                  exact ⟨ih.1 _ _ _ hpe, ih.2 _ _ _ hpc⟩
        · simp at h

theorem xml_mutual_induction (P : Xml → Prop) (Q : List Xml → Prop)
    (helem : ∀ tag attrs tx ch tl, Q ch → P (.elem tag attrs tx ch tl))
    (hnil : Q []) (hcons : ∀ x xs, P x → Q xs → Q (x :: xs)) :
    (∀ t, P t) ∧ (∀ l, Q l) := by
  have key : ∀ n, (∀ t : Xml, sizeOf t ≤ n → P t) ∧ (∀ l : List Xml, sizeOf l ≤ n → Q l) := by
    intro n
    induction n with
    | zero =>
        constructor
        · intro t ht
          cases t with
          | elem tag attrs tx ch tl => simp at ht
        · intro l hl
          cases l with
          | nil => simp at hl
          | cons x xs => simp at hl
    | succ n ihn =>
        constructor
        · intro t ht
          cases t with
          | elem tag attrs tx ch tl =>
              simp only [Xml.elem.sizeOf_spec] at ht
              exact helem tag attrs tx ch tl (ihn.2 ch (by omega))
        · intro l hl
          cases l with
          | nil => exact hnil
          | cons x xs =>
              simp only [List.cons.sizeOf_spec] at hl
              exact hcons x xs (ihn.1 x (by omega)) (ihn.2 xs (by omega))
  exact ⟨fun t => (key (sizeOf t)).1 t le_rfl, fun l => (key (sizeOf l)).2 l le_rfl⟩

theorem size_le_ser :
    (∀ t : Xml, sizeX t ≤ (serElemChars t).length) ∧
    (∀ l : List Xml, sizeL l ≤ (serListChars l).length) := by
  refine xml_mutual_induction _ _ ?_ ?_ ?_
  · intro tag attrs tx ch tl hch
    rw [sizeX_elem, serElemChars_def]
    by_cases hshort : isShortElem tx ch = true
    · have hch0 : ch = [] := by
        rw [isShortElem, Bool.and_eq_true] at hshort
        simpa using hshort.2
      subst hch0
      rw [if_pos hshort]
      simp only [sizeL, List.length_cons, List.length_append]
      omega
    · rw [if_neg hshort]
      simp only [List.length_cons, List.length_append]
      omega
  · simp [sizeL, serListChars_nil]
  · intro x xs hx hxs
    rw [sizeL_cons, serListChars_cons, List.length_append]
    omega

theorem wfX_setTail (t : Xml) (s : String) : wfX (t.setTail s) = wfX t := by
  cases t with
  | elem tag attrs tx ch tl => rfl

theorem tail_setTail (t : Xml) (s : String) : Xml.tail (t.setTail s) = s := by
  cases t with
  | elem tag attrs tx ch tl => rfl

theorem setTail_self (t : Xml) (h : Xml.tail t = "") : t.setTail "" = t := by
  cases t with
  | elem tag attrs tx ch tl =>
      rw [Xml.tail] at h
      rw [Xml.setTail, h]

theorem serElemChars_head (t : Xml) :
    ∃ r, serElemChars t = '<' :: r := by
  cases t with
  | elem tag attrs tx ch tl => rw [serElemChars_def]; exact ⟨_, rfl⟩

theorem parseXml_eq (s : String) :
    parseXml s =
      match parseElem ((skipSpaces s.data).length + 1) (skipSpaces s.data) with
      | some (t, []) =>
          if (Xml.tail t).data.all isXmlSpace then some (t.setTail "") else none
      | _ => none := rfl

theorem parseXml_inv (s : String) (t : Xml) (h : parseXml s = some t) :
    ∃ t0, parseElem ((skipSpaces s.data).length + 1) (skipSpaces s.data) = some (t0, []) ∧
      (Xml.tail t0).data.all isXmlSpace = true ∧ t = t0.setTail "" := by
  rw [parseXml_eq] at h
  cases hpe : parseElem ((skipSpaces s.data).length + 1) (skipSpaces s.data) with
  | none => rw [hpe] at h; cases h
  | some p =>
      obtain ⟨t0, rest⟩ := p
      cases rest with
      | nil =>
          rw [hpe] at h
          split at h
          · rename_i t1 heq1
            rw [Option.some_inj, Prod.mk.injEq] at heq1
            obtain ⟨ht1, -⟩ := heq1
            subst ht1
            by_cases hws2 : (Xml.tail t0).data.all isXmlSpace = true
            · rw [if_pos hws2] at h
              rw [Option.some_inj] at h
              exact ⟨t0, rfl, hws2, h.symm⟩
            · rw [if_neg hws2] at h
              cases h
          · rename_i hne
            exact absurd rfl (hne t0)
      | cons c r => rw [hpe] at h; cases h

/-- C7 (amended): `_prepare_xml` reparses and reserializes the POST payload;
for every payload whose parsed tree carries no carriage return in its
character data (text or tails), the reserialized output parses back to
exactly the same tree — same tag, attributes, text and child order.  (With a
carriage return in character data the reserialization is not
semantics-preserving: serialization writes it raw and reparsing normalizes
it to a newline — see the counterexample.) -/
theorem prepare_xml_roundtrip (s : String) (t : Xml)
    (hp : parseXml s = some t) (hcr : noCRX t = true) :
    prepareXml s = some (tostring t) ∧ parseXml (tostring t) = some t := by
  constructor
  · unfold prepareXml
    rw [hp]
    rfl
  · obtain ⟨t0, hpe, hws, ht⟩ := parseXml_inv s t hp
    have hwf0 : wfX t0 = true := (parse_wf _).1 _ _ _ hpe
    have hwf : wfX t = true := by rw [ht, wfX_setTail]; exact hwf0
    have htail : Xml.tail t = "" := by rw [ht, tail_setTail]
    rw [parseXml_eq]
    obtain ⟨r, hr⟩ := serElemChars_head t
    have hskip : skipSpaces (tostring t).data = serElemChars t := by
      rw [show (tostring t).data = serElemChars t from rfl, hr]
      exact skipSpaces_not '<' r (by decide)
    rw [hskip]
    have hemit := (parse_emit ((serElemChars t).length + 1)).1 t [] hwf hcr
      (by have := size_le_ser.1 t; omega) rfl
    rw [List.append_nil] at hemit
    rw [hemit]
    show (if (Xml.tail t).data.all isXmlSpace then some (t.setTail "") else none) = some t
    rw [htail]
    rw [if_pos (by simp)]
    rw [setTail_self t htail]

theorem prepare_xml_roundtrip_witness :
    prepareXml "<a b=\"1\">t<c />u</a>" =
      some (tostring (.elem "a" [("b", "1")] "t" [.elem "c" [] "" [] "u"] "")) ∧
    parseXml (tostring (.elem "a" [("b", "1")] "t" [.elem "c" [] "" [] "u"] "")) =
      some (.elem "a" [("b", "1")] "t" [.elem "c" [] "" [] "u"] "") :=
  prepare_xml_roundtrip "<a b=\"1\">t<c />u</a>"
    (.elem "a" [("b", "1")] "t" [.elem "c" [] "" [] "u"] "") rfl rfl

/-- C7 counterexample: the input `<a>&#13;</a>` is well-formed and parses
with text `"\r"`; `_prepare_xml` reserializes it as `<a>\r</a>` (ElementTree
does not escape carriage returns in character data), and reparsing that
output yields text `"\n"` (XML line-ending normalization) — the prepared
payload does not have the same text content as its input. -/
theorem prepare_xml_cr_counterexample :
    parseXml "<a>&#13;</a>" = some (.elem "a" [] "\r" [] "") ∧
    prepareXml "<a>&#13;</a>" = some "<a>\r</a>" ∧
    parseXml "<a>\r</a>" = some (.elem "a" [] "\n" [] "") ∧
    ("\r" : String) ≠ "\n" :=
  ⟨rfl, rfl, rfl, by decide⟩

end Lazada
